import Mathlib

/-!
# Verification of the rs-agent-gear filesystem service

A shallow embedding of the core of the `rs-agent-gear` repository
(src/fs/atomic.rs, io.rs, index.rs, watcher.rs, searcher.rs, mod.rs)
together with proofs about the embedded operations.

Conventions of the embedding:
* file contents are lists of characters (`List Char`);
* the on-disk file system is an association list from path strings to contents;
* `Instant` timestamps are natural numbers;
* fallible IO steps are driven by explicit failure oracles (`none` /
  dedicated outcome types meaning every step succeeds);
* external crates (`globset` matchers, `regex` matchers, the `ignore`
  walker, the `notify` event source) are abstracted as function or list
  parameters, since their source is not part of this repository.
-/

namespace AgentGear

/-- The error type from src/utils/error.rs (`AgentGearError`). -/
inductive GearError where
  | ioErr
  | pathNotFound (p : String)
  | patternErr (p : String)
  | textNotUnique (n : Nat)
  | textNotFound
  | indexNotReady
  | globErr
  | regexErr (s : String)
  | internal (s : String)
deriving DecidableEq, Repr

/-! ## Association-list primitives

`DashMap` (keyed maps) and the on-disk directory are both modelled as
association lists with at most one binding per key being relevant
(`assocLookup` finds the first binding, `assocSet` replaces it). -/

/-- First binding for key `p`, if any (models map lookup). -/
def assocLookup {α : Type} : List (String × α) → String → Option α
  | [], _ => none
  | e :: t, p => if e.1 = p then some e.2 else assocLookup t p

/-- Insert-or-overwrite for key `p` (models `DashMap::insert`). -/
def assocSet {α : Type} : List (String × α) → String → α → List (String × α)
  | [], p, v => [(p, v)]
  | e :: t, p, v => if e.1 = p then (p, v) :: t else e :: assocSet t p v

/-- Remove every binding for key `p` (models map removal / file deletion). -/
def assocErase {α : Type} : List (String × α) → String → List (String × α)
  | [], _ => []
  | e :: t, p => if e.1 = p then assocErase t p else e :: assocErase t p

theorem assocLookup_set_self {α : Type} (l : List (String × α)) (p : String) (v : α) :
    assocLookup (assocSet l p v) p = some v := by
  induction l with
  | nil => simp [assocSet, assocLookup]
  | cons e t ih =>
    by_cases h : e.1 = p
    · simp [assocSet, assocLookup, h]
    · simp [assocSet, assocLookup, h, ih]

theorem assocLookup_set_ne {α : Type} (l : List (String × α)) (p q : String) (v : α)
    (h : q ≠ p) : assocLookup (assocSet l p v) q = assocLookup l q := by
  have hpq : p ≠ q := Ne.symm h
  induction l with
  | nil => simp [assocSet, assocLookup, hpq]
  | cons e t ih =>
    by_cases he : e.1 = p
    · simp [assocSet, assocLookup, he, hpq]
    · simp [assocSet, assocLookup, he, ih]

theorem assocLookup_erase_self {α : Type} (l : List (String × α)) (p : String) :
    assocLookup (assocErase l p) p = none := by
  induction l with
  | nil => rfl
  | cons e t ih =>
    by_cases h : e.1 = p
    · simp [assocErase, h, ih]
    · simp [assocErase, assocLookup, h, ih]

theorem assocLookup_erase_ne {α : Type} (l : List (String × α)) (p q : String)
    (h : q ≠ p) : assocLookup (assocErase l p) q = assocLookup l q := by
  induction l with
  | nil => rfl
  | cons e t ih =>
    by_cases he : e.1 = p
    · have hne : ¬ e.1 = q := by rw [he]; exact Ne.symm h
      simp [assocErase, assocLookup, he, hne, Ne.symm h, ih]
    · simp [assocErase, assocLookup, he, ih]

theorem assocLookup_eq_none_iff {α : Type} (l : List (String × α)) (p : String) :
    assocLookup l p = none ↔ p ∉ l.map Prod.fst := by
  induction l with
  | nil => simp [assocLookup]
  | cons e t ih =>
    by_cases h : e.1 = p
    · simp [assocLookup, h]
    · have h' : ¬ p = e.1 := fun hh => h (Eq.symm hh)
      simp [assocLookup, h, h', ih]

/-! ## The on-disk file system and the atomic writer (src/fs/atomic.rs) -/

/-- The on-disk state: an association list from path to content. -/
def FS : Type := List (String × List Char)

/-- Content of the file at `p`, if it exists. -/
def fsLookup (fs : FS) (p : String) : Option (List Char) := assocLookup fs p

/-- Create or overwrite the file at `p`. -/
def fsSet (fs : FS) (p : String) (c : List Char) : FS := assocSet fs p c

/-- Delete the file at `p`. -/
def fsErase (fs : FS) (p : String) : FS := assocErase fs p

/-- Atomic rename of `src` onto `dst` (`NamedTempFile::persist`). -/
def fsRename (fs : FS) (src dst : String) : FS :=
  match fsLookup fs src with
  | none => fs
  | some c => fsSet (fsErase fs src) dst c

/-- Outcome oracle for one `atomic_write` call, naming the step of
src/fs/atomic.rs that fails (`ok` = every step succeeds). -/
inductive AwOutcome where
  | ok
  | failMkdir      -- create_dir_all (line 32)
  | failCreateTemp -- NamedTempFile::new_in (line 37)
  | failWrite      -- write_all (line 40)
  | failSync       -- sync_all (line 43)
  | failPersist    -- persist / rename (line 46)
deriving DecidableEq, Repr

/-- Shallow embedding of `atomic_write` (src/fs/atomic.rs lines 26-54).
`tmp` is the fresh name chosen by `NamedTempFile::new_in` in the target's
directory.  Each arm gives the disk state the call leaves behind: the
target `path` is only touched by the final atomic rename, and on every
error path the `NamedTempFile` guard is dropped, deleting the temporary
file.  Returns the success flag and the resulting disk state. -/
def atomic_write (fs : FS) (path : String) (content : List Char)
    (tmp : String) (o : AwOutcome) : Bool × FS :=
  match o with
  | .failMkdir => (false, fs)
  | .failCreateTemp => (false, fs)
  | .failWrite => (false, fsErase (fsSet fs tmp []) tmp)
  | .failSync => (false, fsErase (fsSet (fsSet fs tmp []) tmp content) tmp)
  | .failPersist => (false, fsErase (fsSet (fsSet fs tmp []) tmp content) tmp)
  | .ok => (true, fsRename (fsSet (fsSet fs tmp []) tmp content) tmp path)

/-- `write_file` (src/fs/io.rs lines 103-106) delegates to `atomic_write`
on the string's UTF-8 bytes. -/
def write_file (fs : FS) (path : String) (content : List Char)
    (tmp : String) (o : AwOutcome) : Bool × FS :=
  atomic_write fs path content tmp o

/-- `read_file` (src/fs/io.rs lines 21-32): read, mapping a missing file
to `PathNotFound`. -/
def read_file (fs : FS) (path : String) : Except GearError (List Char) :=
  match fsLookup fs path with
  | none => .error (.pathNotFound path)
  | some c => .ok c

theorem atomic_write_ok_lookup (fs : FS) (path tmp : String) (content : List Char) :
    fsLookup (atomic_write fs path content tmp .ok).2 path = some content := by
  show fsLookup (fsRename (fsSet (fsSet fs tmp []) tmp content) tmp path) path = some content
  have hsrc : fsLookup (fsSet (fsSet fs tmp []) tmp content) tmp = some content :=
    assocLookup_set_self _ _ _
  unfold fsRename
  rw [hsrc]
  exact assocLookup_set_self _ _ _

theorem atomic_write_fail_lookup (fs : FS) (path tmp : String) (content : List Char)
    (o : AwOutcome) (htmp : tmp ≠ path)
    (hfail : (atomic_write fs path content tmp o).1 = false) :
    fsLookup (atomic_write fs path content tmp o).2 path = fsLookup fs path := by
  have hpt : path ≠ tmp := fun h => htmp h.symm
  cases o with
  | ok => simp [atomic_write] at hfail
  | failMkdir => rfl
  | failCreateTemp => rfl
  | failWrite =>
    show fsLookup (fsErase (fsSet fs tmp []) tmp) path = fsLookup fs path
    rw [show fsLookup (fsErase (fsSet fs tmp []) tmp) path =
         assocLookup (assocErase (assocSet fs tmp []) tmp) path from rfl,
      assocLookup_erase_ne _ _ _ hpt, assocLookup_set_ne _ _ _ _ hpt]
    rfl
  | failSync =>
    show fsLookup (fsErase (fsSet (fsSet fs tmp []) tmp content) tmp) path = fsLookup fs path
    rw [show fsLookup (fsErase (fsSet (fsSet fs tmp []) tmp content) tmp) path =
         assocLookup (assocErase (assocSet (assocSet fs tmp []) tmp content) tmp) path from rfl,
      assocLookup_erase_ne _ _ _ hpt, assocLookup_set_ne _ _ _ _ hpt,
      assocLookup_set_ne _ _ _ _ hpt]
    rfl
  | failPersist =>
    show fsLookup (fsErase (fsSet (fsSet fs tmp []) tmp content) tmp) path = fsLookup fs path
    rw [show fsLookup (fsErase (fsSet (fsSet fs tmp []) tmp content) tmp) path =
         assocLookup (assocErase (assocSet (assocSet fs tmp []) tmp content) tmp) path from rfl,
      assocLookup_erase_ne _ _ _ hpt, assocLookup_set_ne _ _ _ _ hpt,
      assocLookup_set_ne _ _ _ _ hpt]
    rfl

/-- C3: a completed `atomic_write(path, bytes)` leaves the file at `path`
containing exactly the given bytes; a failed call (at any step of the
algorithm) leaves the prior content, or absence, of `path` unchanged; and
`write_file(p, s)` followed by `read_file(p)` returns `s`. -/
theorem atomic_write_exact_or_unchanged (fs : FS) (path tmp : String)
    (content : List Char) (o : AwOutcome) (htmp : tmp ≠ path) :
    ((atomic_write fs path content tmp o).1 = true →
      fsLookup (atomic_write fs path content tmp o).2 path = some content) ∧
    ((atomic_write fs path content tmp o).1 = false →
      fsLookup (atomic_write fs path content tmp o).2 path = fsLookup fs path) ∧
    read_file (write_file fs path content tmp .ok).2 path = .ok content := by
  refine ⟨?_, atomic_write_fail_lookup fs path tmp content o htmp, ?_⟩
  · intro hok
    cases o with
    | ok => exact atomic_write_ok_lookup fs path tmp content
    | failMkdir => simp [atomic_write] at hok
    | failCreateTemp => simp [atomic_write] at hok
    | failWrite => simp [atomic_write] at hok
    | failSync => simp [atomic_write] at hok
    | failPersist => simp [atomic_write] at hok
  · show read_file (atomic_write fs path content tmp .ok).2 path = .ok content
    unfold read_file
    rw [atomic_write_ok_lookup fs path tmp content]

/-- Witness for C3 at a concrete disk state. -/
theorem atomic_write_exact_or_unchanged_witness :
    (".t1" : String) ≠ "a.txt" ∧
    (((atomic_write [] "a.txt" ['h', 'i'] ".t1" .ok).1 = true →
      fsLookup (atomic_write [] "a.txt" ['h', 'i'] ".t1" .ok).2 "a.txt" = some ['h', 'i']) ∧
    ((atomic_write [] "a.txt" ['h', 'i'] ".t1" .ok).1 = false →
      fsLookup (atomic_write [] "a.txt" ['h', 'i'] ".t1" .ok).2 "a.txt" = fsLookup [] "a.txt") ∧
    read_file (write_file [] "a.txt" ['h', 'i'] ".t1" .ok).2 "a.txt" = .ok ['h', 'i']) :=
  ⟨by decide, atomic_write_exact_or_unchanged [] "a.txt" ".t1" ['h', 'i'] .ok (by decide)⟩

/-! ## Text replacement (src/fs/io.rs, `edit_replace`)

`str::matches` / `str::replace` scan left to right and skip the whole
pattern after each match.  The scan consumes at least one character per
step, so running it with `s.length` units of fuel is exact; the fuel only
serves to make the definitions structurally recursive. -/

/-- Left-to-right non-overlapping match counter for a non-empty pattern. -/
def strMatchesCountAux (pat : List Char) : Nat → List Char → Nat
  | 0, _ => 0
  | _, [] => 0
  | fuel + 1, c :: rest =>
    if pat.isPrefixOf (c :: rest) then
      1 + strMatchesCountAux pat fuel ((c :: rest).drop pat.length)
    else strMatchesCountAux pat fuel rest

/-- Rust `content.matches(old_text).count()` (io.rs line 173): the number
of non-overlapping, leftmost occurrences of `pat` in `s`; an empty
pattern matches once at every char boundary. -/
def strMatchesCount (s pat : List Char) : Nat :=
  if pat = [] then s.length + 1 else strMatchesCountAux pat s.length s

/-- Left-to-right non-overlapping replacement for a non-empty pattern. -/
def strReplaceAux (pat rep : List Char) : Nat → List Char → List Char
  | 0, s => s
  | _, [] => []
  | fuel + 1, c :: rest =>
    if pat.isPrefixOf (c :: rest) then
      rep ++ strReplaceAux pat rep fuel ((c :: rest).drop pat.length)
    else c :: strReplaceAux pat rep fuel rest

/-- Rust `content.replace(old_text, new_text)` (io.rs line 187): replace
every non-overlapping, leftmost occurrence of `pat` by `rep`; an empty
pattern inserts `rep` at every char boundary. -/
def strReplace (s pat rep : List Char) : List Char :=
  if pat = [] then rep ++ (s.map (fun c => c :: rep)).flatten
  else strReplaceAux pat rep s.length s

/-- Shallow embedding of `edit_replace` (src/fs/io.rs lines 155-195): read
the file (a missing file is `PathNotFound`), count the occurrences of
`old_text`, apply the strictness checks in source order, then replace all
occurrences and write via `atomic_write` (temp name `tmp`, outcome oracle
`o`).  Returns the call's `Result<bool>` and the resulting disk state. -/
def edit_replace (fs : FS) (path : String) (old_text new_text : List Char)
    (strict : Bool) (tmp : String) (o : AwOutcome) : Except GearError Bool × FS :=
  match fsLookup fs path with
  | none => (.error (.pathNotFound path), fs)
  | some content =>
    let count := strMatchesCount content old_text
    if count = 0 then
      if strict then (.error .textNotFound, fs) else (.ok false, fs)
    else if 1 < count ∧ strict = true then (.error (.textNotUnique count), fs)
    else
      match atomic_write fs path (strReplace content old_text new_text) tmp o with
      | (true, fs') => (.ok true, fs')
      | (false, fs') => (.error .ioErr, fs')

/-- C2: for a file whose content has exactly `n` occurrences of `old`:
`edit_replace` fails with `TextNotFound` iff strict and `n = 0`; fails
with `TextNotUnique(n)` iff strict and `n > 1`; returns `false` (writing
nothing) when `n = 0` and not strict; otherwise, with IO succeeding, it
replaces every occurrence, writes the result atomically and returns
`true`; and a strict call returning `true` had exactly one occurrence. -/
theorem edit_replace_spec (fs : FS) (path tmp : String)
    (old_text new_text content : List Char) (strict : Bool) (o : AwOutcome)
    (hread : fsLookup fs path = some content) :
    ((edit_replace fs path old_text new_text strict tmp o).1 = .error .textNotFound ↔
      (strict = true ∧ strMatchesCount content old_text = 0)) ∧
    ((edit_replace fs path old_text new_text strict tmp o).1 =
        .error (.textNotUnique (strMatchesCount content old_text)) ↔
      (strict = true ∧ 1 < strMatchesCount content old_text)) ∧
    (strMatchesCount content old_text = 0 → strict = false →
      edit_replace fs path old_text new_text strict tmp o = (.ok false, fs)) ∧
    (0 < strMatchesCount content old_text →
      (strict = true → strMatchesCount content old_text = 1) → o = .ok →
      (edit_replace fs path old_text new_text strict tmp o).1 = .ok true ∧
        fsLookup (edit_replace fs path old_text new_text strict tmp o).2 path =
          some (strReplace content old_text new_text)) ∧
    (strict = true → (edit_replace fs path old_text new_text strict tmp o).1 = .ok true →
      strMatchesCount content old_text = 1) := by
  by_cases hn : strMatchesCount content old_text = 0
  · cases strict with
    | true =>
      have hr : edit_replace fs path old_text new_text true tmp o =
          (.error .textNotFound, fs) := by
        rw [edit_replace, hread]; simp [hn]
      refine ⟨?_, ?_, ?_, ?_, ?_⟩
      · rw [hr]; simp [hn]
      · rw [hr]; simp [hn]
      · intro _ hfalse; simp at hfalse
      · intro hpos _ _; rw [hn] at hpos; exact absurd hpos (lt_irrefl 0)
      · intro _ hok; rw [hr] at hok; simp at hok
    | false =>
      have hr : edit_replace fs path old_text new_text false tmp o = (.ok false, fs) := by
        rw [edit_replace, hread]; simp [hn]
      refine ⟨?_, ?_, ?_, ?_, ?_⟩
      · rw [hr]; simp
      · rw [hr]; simp
      · intro _ _; exact hr
      · intro hpos _ _; rw [hn] at hpos; exact absurd hpos (lt_irrefl 0)
      · intro htrue; simp at htrue
  · by_cases hu : 1 < strMatchesCount content old_text ∧ strict = true
    · have hr : edit_replace fs path old_text new_text strict tmp o =
          (.error (.textNotUnique (strMatchesCount content old_text)), fs) := by
        rw [edit_replace, hread]; simp [hn, hu]
      refine ⟨?_, ?_, ?_, ?_, ?_⟩
      · rw [hr]; simp [hn]
      · rw [hr]; simp [hu.1, hu.2]
      · intro h0 _; exact absurd h0 hn
      · intro _ hone _
        have h1 := hone hu.2
        have h2 := hu.1
        omega
      · intro _ hok; rw [hr] at hok; simp at hok
    · have hr : edit_replace fs path old_text new_text strict tmp o =
          match atomic_write fs path (strReplace content old_text new_text) tmp o with
          | (true, fs') => (.ok true, fs')
          | (false, fs') => (.error .ioErr, fs') := by
        rw [edit_replace, hread]; simp [hn, hu]
      rcases hA : atomic_write fs path (strReplace content old_text new_text) tmp o
        with ⟨b, fs'⟩
      rw [hA] at hr
      cases b with
      | true =>
        simp only at hr
        refine ⟨?_, ?_, ?_, ?_, ?_⟩
        · rw [hr]; simp [hn]
        · rw [hr]
          refine ⟨fun hok => by simp at hok, fun h => absurd ⟨h.2, h.1⟩ hu⟩
        · intro h0 _; exact absurd h0 hn
        · intro _ _ ho
          refine ⟨by rw [hr], ?_⟩
          rw [hr]
          have hlk := atomic_write_ok_lookup fs path tmp (strReplace content old_text new_text)
          rw [ho] at hA
          rw [hA] at hlk
          exact hlk
        · intro hs _
          have h1 : ¬ 1 < strMatchesCount content old_text := fun h => hu ⟨h, hs⟩
          omega
      | false =>
        simp only at hr
        refine ⟨?_, ?_, ?_, ?_, ?_⟩
        · rw [hr]; simp [hn]
        · rw [hr]
          refine ⟨fun hok => by simp at hok, fun h => absurd ⟨h.2, h.1⟩ hu⟩
        · intro h0 _; exact absurd h0 hn
        · intro _ _ ho
          rw [ho] at hA
          simp [atomic_write] at hA
        · intro _ hok; rw [hr] at hok; simp at hok

/-- Witness for C2 on a concrete file with two occurrences replaced
non-strictly. -/
theorem edit_replace_spec_witness :
    fsLookup [("t.txt", ['a', 'b', 'a'])] "t.txt" = some ['a', 'b', 'a'] ∧
    (((edit_replace [("t.txt", ['a', 'b', 'a'])] "t.txt" ['a'] ['z'] false ".tmp0" .ok).1 =
        .error .textNotFound ↔
      (false = true ∧ strMatchesCount ['a', 'b', 'a'] ['a'] = 0)) ∧
    ((edit_replace [("t.txt", ['a', 'b', 'a'])] "t.txt" ['a'] ['z'] false ".tmp0" .ok).1 =
        .error (.textNotUnique (strMatchesCount ['a', 'b', 'a'] ['a'])) ↔
      (false = true ∧ 1 < strMatchesCount ['a', 'b', 'a'] ['a'])) ∧
    (strMatchesCount ['a', 'b', 'a'] ['a'] = 0 → false = false →
      edit_replace [("t.txt", ['a', 'b', 'a'])] "t.txt" ['a'] ['z'] false ".tmp0" .ok =
        (.ok false, [("t.txt", ['a', 'b', 'a'])])) ∧
    (0 < strMatchesCount ['a', 'b', 'a'] ['a'] →
      (false = true → strMatchesCount ['a', 'b', 'a'] ['a'] = 1) → AwOutcome.ok = .ok →
      (edit_replace [("t.txt", ['a', 'b', 'a'])] "t.txt" ['a'] ['z'] false ".tmp0" .ok).1 =
          .ok true ∧
        fsLookup
            (edit_replace [("t.txt", ['a', 'b', 'a'])] "t.txt" ['a'] ['z'] false ".tmp0" .ok).2
            "t.txt" =
          some (strReplace ['a', 'b', 'a'] ['a'] ['z'])) ∧
    (false = true →
      (edit_replace [("t.txt", ['a', 'b', 'a'])] "t.txt" ['a'] ['z'] false ".tmp0" .ok).1 =
        .ok true →
      strMatchesCount ['a', 'b', 'a'] ['a'] = 1)) :=
  ⟨by decide,
    edit_replace_spec [("t.txt", ['a', 'b', 'a'])] "t.txt" ".tmp0" ['a'] ['z']
      ['a', 'b', 'a'] false .ok (by decide)⟩

/-- C9: whenever `edit_replace` returns an error (`PathNotFound`, `Io`,
`TextNotFound`, `TextNotUnique`) or returns `false`, it performs no write:
the content (or absence) of the file at `path` is unchanged on disk. -/
theorem edit_replace_frame_on_failure (fs : FS) (path tmp : String)
    (old_text new_text : List Char) (strict : Bool) (o : AwOutcome)
    (htmp : tmp ≠ path)
    (hfail : (edit_replace fs path old_text new_text strict tmp o).1 ≠ .ok true) :
    fsLookup (edit_replace fs path old_text new_text strict tmp o).2 path =
      fsLookup fs path := by
  cases hL : fsLookup fs path with
  | none =>
    rw [edit_replace, hL]
    exact hL
  | some content =>
    rw [edit_replace, hL] at hfail ⊢
    by_cases hn : strMatchesCount content old_text = 0
    · cases strict <;> simp [hn, hL]
    · by_cases hu : 1 < strMatchesCount content old_text ∧ strict = true
      · simp [hn, hu, hL]
      · simp only [hn, hu, if_neg, reduceIte] at hfail ⊢
        rcases hA : atomic_write fs path (strReplace content old_text new_text) tmp o
          with ⟨b, fs'⟩
        cases b with
        | true => rw [hA] at hfail; simp at hfail
        | false =>
          simp only
          have hfl := atomic_write_fail_lookup fs path tmp
            (strReplace content old_text new_text) o htmp (by rw [hA])
          rw [hA] at hfl
          exact hfl.trans hL

/-- Witness for C9 on a concrete strict call that fails with
`TextNotUnique`. -/
theorem edit_replace_frame_on_failure_witness :
    fsLookup (edit_replace [("u.txt", ['a', 'a'])] "u.txt" ['a'] ['z'] true ".tmp1" .ok).2
        "u.txt" =
      fsLookup [("u.txt", ['a', 'a'])] "u.txt" :=
  edit_replace_frame_on_failure [("u.txt", ['a', 'a'])] "u.txt" ".tmp1" ['a'] ['z'] true .ok
    (by decide)
    (by
      intro h
      rw [show (edit_replace [("u.txt", ['a', 'a'])] "u.txt" ['a'] ['z'] true ".tmp1"
          .ok).1 = Except.error (GearError.textNotUnique 2) from rfl] at h
      cases h)


/-! ## Debouncer (src/fs/watcher.rs) -/

/-- `ChangeKind` (watcher.rs lines 21-30). -/
inductive ChangeKind where
  | created
  | modified
  | deleted
  | renamed (fromPath toPath : String)
deriving DecidableEq, Repr

/-- A debounced `FileChange` (watcher.rs lines 34-41); `Instant`
timestamps are modelled as naturals. -/
structure FileChange where
  path : String
  kind : ChangeKind
  timestamp : Nat
deriving DecidableEq, Repr

/-- `Debouncer` state (watcher.rs lines 46-51): pending events by path
plus the debounce duration. -/
structure Debouncer where
  pending : List (String × ChangeKind × Nat)
  duration : Nat
deriving DecidableEq, Repr

/-- `Debouncer::add_event` (watcher.rs lines 63-84); `now` models
`Instant::now()` at the call. -/
def Debouncer.add_event (d : Debouncer) (path : String) (kind : ChangeKind)
    (now : Nat) : Debouncer :=
  match assocLookup d.pending path with
  | some (existing, _) =>
    match existing, kind with
    | .created, .deleted => { d with pending := assocErase d.pending path }
    | .created, .modified => d
    | _, _ => { d with pending := assocSet d.pending path (kind, now) }
  | none => { d with pending := assocSet d.pending path (kind, now) }

/-- `Debouncer::flush` (watcher.rs lines 87-108): return and remove every
entry whose timestamp is at least `duration` in the past. -/
def Debouncer.flush (d : Debouncer) (now : Nat) : List FileChange × Debouncer :=
  (((d.pending.filter fun e => decide (d.duration ≤ now - e.2.2)).map
      fun e => ⟨e.1, e.2.1, e.2.2⟩),
   { d with pending := d.pending.filter fun e => !decide (d.duration ≤ now - e.2.2) })

/-- `Debouncer::flush_all` (watcher.rs lines 111-122): return and clear
every pending entry regardless of age. -/
def Debouncer.flush_all (d : Debouncer) : List FileChange × Debouncer :=
  (d.pending.map (fun e => ⟨e.1, e.2.1, e.2.2⟩), { d with pending := [] })

theorem add_event_created_lookup (d : Debouncer) (p : String) (now : Nat) :
    assocLookup (d.add_event p .created now).pending p = some (.created, now) := by
  unfold Debouncer.add_event
  cases hL : assocLookup d.pending p with
  | none => exact assocLookup_set_self _ _ _
  | some v =>
    rcases v with ⟨ex, t⟩
    cases ex <;> exact assocLookup_set_self _ _ _

theorem add_event_deleted_of_created (d : Debouncer) (p : String) (t now : Nat)
    (h : assocLookup d.pending p = some (.created, t)) :
    (d.add_event p .deleted now).pending = assocErase d.pending p := by
  unfold Debouncer.add_event
  rw [h]

/-- C5: the debouncer merge rules: `Deleted` after a pending `Created`
removes the entry; `Modified` after a pending `Created` keeps the entry
(original timestamp included) and the whole state unchanged; every other
combination, including a fresh path, stores the new kind at the current
time; and `add(Created p); add(Deleted p); flush_all()` emits no event
for `p`. -/
theorem debouncer_merge_rules (d : Debouncer) (p : String) (k : ChangeKind)
    (t now now' : Nat) :
    (assocLookup d.pending p = some (.created, t) →
      (d.add_event p .deleted now).pending = assocErase d.pending p) ∧
    (assocLookup d.pending p = some (.created, t) →
      d.add_event p .modified now = d) ∧
    (assocLookup d.pending p = none →
      (d.add_event p k now).pending = assocSet d.pending p (k, now)) ∧
    (∀ ex : ChangeKind, assocLookup d.pending p = some (ex, t) →
      ¬(ex = .created ∧ k = .deleted) → ¬(ex = .created ∧ k = .modified) →
      (d.add_event p k now).pending = assocSet d.pending p (k, now)) ∧
    (∀ c ∈ (((d.add_event p .created now).add_event p .deleted now').flush_all).1,
      c.path ≠ p) := by
  refine ⟨add_event_deleted_of_created d p t now, ?_, ?_, ?_, ?_⟩
  · intro h
    unfold Debouncer.add_event
    rw [h]
  · intro h
    unfold Debouncer.add_event
    rw [h]
  · intro ex h hnd hnm
    unfold Debouncer.add_event
    rw [h]
    cases ex with
    | created =>
      cases k with
      | created => rfl
      | modified => exact absurd ⟨rfl, rfl⟩ hnm
      | deleted => exact absurd ⟨rfl, rfl⟩ hnd
      | renamed f t2 => rfl
    | modified => cases k <;> rfl
    | deleted => cases k <;> rfl
    | renamed f t2 => cases k <;> rfl
  · intro c hc
    have h1 : assocLookup (d.add_event p .created now).pending p =
        some (.created, now) := add_event_created_lookup d p now
    have h2 : ((d.add_event p .created now).add_event p .deleted now').pending =
        assocErase (d.add_event p .created now).pending p :=
      add_event_deleted_of_created _ p now now' h1
    have h3 : assocLookup ((d.add_event p .created now).add_event p .deleted now').pending
        p = none := by
      rw [h2]; exact assocLookup_erase_self _ _
    have h4 : p ∉ ((d.add_event p .created now).add_event p .deleted
        now').pending.map Prod.fst := (assocLookup_eq_none_iff _ _).mp h3
    intro hcp
    apply h4
    rcases List.mem_map.mp hc with ⟨e, he, hec⟩
    have hep : e.1 = p := by rw [← hcp, ← hec]
    have hm := List.mem_map_of_mem Prod.fst he
    rwa [hep] at hm

/-- Witness for C5: each merge rule exercised on a concrete pending map,
with every hypothesis discharged. -/
theorem debouncer_merge_rules_witness :
    ((Debouncer.mk [("f", (ChangeKind.created, 3))] 50).add_event "f" .deleted 7).pending =
      assocErase (Debouncer.mk [("f", (ChangeKind.created, 3))] 50).pending "f" ∧
    (Debouncer.mk [("f", (ChangeKind.created, 3))] 50).add_event "f" .modified 7 =
      Debouncer.mk [("f", (ChangeKind.created, 3))] 50 ∧
    ((Debouncer.mk ([] : List (String × ChangeKind × Nat)) 50).add_event "f"
        .created 7).pending =
      assocSet ([] : List (String × ChangeKind × Nat)) "f" (.created, 7) ∧
    ((Debouncer.mk [("f", (ChangeKind.created, 3))] 50).add_event "f" .created 7).pending =
      assocSet (Debouncer.mk [("f", (ChangeKind.created, 3))] 50).pending "f"
        (.created, 7) ∧
    (∀ c ∈ ((((Debouncer.mk [("f", (ChangeKind.created, 3))] 50).add_event "f" .created
        7).add_event "f" .deleted 9).flush_all).1, c.path ≠ "f") :=
  ⟨(debouncer_merge_rules (Debouncer.mk [("f", (ChangeKind.created, 3))] 50) "f"
      .deleted 3 7 9).1 (by decide),
   (debouncer_merge_rules (Debouncer.mk [("f", (ChangeKind.created, 3))] 50) "f"
      .modified 3 7 9).2.1 (by decide),
   (debouncer_merge_rules (Debouncer.mk ([] : List (String × ChangeKind × Nat)) 50) "f"
      .created 3 7 9).2.2.1 (by decide),
   (debouncer_merge_rules (Debouncer.mk [("f", (ChangeKind.created, 3))] 50) "f"
      .created 3 7 9).2.2.2.1 .created (by decide) (by decide) (by decide),
   (debouncer_merge_rules (Debouncer.mk [("f", (ChangeKind.created, 3))] 50) "f"
      .created 3 7 9).2.2.2.2⟩

/-! ## The file index (src/fs/index.rs) -/

/-- `FileMetadata` (index.rs lines 25-41).  `mtime` is an `f64` count of
seconds since the epoch in the source; the claims never inspect it, and it
is modelled as a natural number. -/
structure FileMetadata where
  size : Nat
  mtime : Nat
  is_dir : Bool
  is_binary : Bool
deriving DecidableEq, Repr

/-- The mutable state of a `FileIndex` (index.rs lines 88-109): the
`entries` and `dir_children` maps, the `all_files` vector, and the two
atomic flags.  The glob cache is not part of the state model (matchers are
abstracted as functions). -/
structure IndexState where
  entries : List (String × FileMetadata)
  dir_children : List (String × List String)
  all_files : List String
  is_ready : Bool
  is_building : Bool
deriving DecidableEq, Repr

/-- `dir_children.entry(parent).or_default().push(child)` as used by
`build` and `add_path`. -/
def pushChild (dc : List (String × List String)) (parent child : String) :
    List (String × List String) :=
  match assocLookup dc parent with
  | some cs => assocSet dc parent (cs ++ [child])
  | none => assocSet dc parent [child]

/-- `FileIndex::add_path` (index.rs lines 472-523).  `disk` is the result
of `fs::metadata`: `none` models a path that does not exist (the call is
then a no-op), `some m` a successful read.  `parent` is `path.parent()`.
The path is appended to `all_files` only when it is a file that is not
already present. -/
def FileIndex.add_path (s : IndexState) (path parent : String)
    (disk : Option FileMetadata) : IndexState :=
  match disk with
  | none => s
  | some m =>
    let s1 := { s with entries := assocSet s.entries path m,
                       dir_children := pushChild s.dir_children parent path }
    if m.is_dir = false ∧ path ∉ s1.all_files then
      { s1 with all_files := s1.all_files ++ [path] }
    else s1

theorem add_path_all_files_eq (s : IndexState) (path parent : String) (m : FileMetadata) :
    (FileIndex.add_path s path parent (some m)).all_files =
      if m.is_dir = false ∧ path ∉ s.all_files then s.all_files ++ [path]
      else s.all_files := by
  by_cases hc : m.is_dir = false ∧ path ∉ s.all_files
  · simp only [FileIndex.add_path, if_pos hc]
  · simp only [FileIndex.add_path, if_neg hc]

/-- C8: `add_path` never introduces a duplicate into `all_files` (a path
occurring at most once keeps occurring at most once, whichever path is
added), and `add_path` is idempotent with respect to `all_files`. -/
theorem add_path_all_files_no_dup (s : IndexState) (x path parent : String)
    (disk : Option FileMetadata) (h : s.all_files.count x ≤ 1) :
    (FileIndex.add_path s path parent disk).all_files.count x ≤ 1 ∧
    (FileIndex.add_path (FileIndex.add_path s path parent disk) path parent
        disk).all_files =
      (FileIndex.add_path s path parent disk).all_files := by
  cases disk with
  | none => exact ⟨h, rfl⟩
  | some m =>
    constructor
    · rw [add_path_all_files_eq]
      by_cases hc : m.is_dir = false ∧ path ∉ s.all_files
      · rw [if_pos hc, List.count_append]
        by_cases hx : path = x
        · have h0 : List.count x s.all_files = 0 := by
            rw [← hx]
            exact List.count_eq_zero.mpr hc.2
          rw [h0, hx]
          simp
        · have h1 : List.count x [path] = 0 := by
            apply List.count_eq_zero.mpr
            intro hm
            rw [List.mem_singleton] at hm
            exact hx hm.symm
          rw [h1]
          omega
      · rw [if_neg hc]
        exact h
    · by_cases hd : m.is_dir = false
      · have hmem : path ∈ (FileIndex.add_path s path parent (some m)).all_files := by
          rw [add_path_all_files_eq]
          by_cases hin : path ∈ s.all_files
          · rw [if_neg (fun hcc => hcc.2 hin)]
            exact hin
          · rw [if_pos ⟨hd, hin⟩]
            simp
        rw [add_path_all_files_eq, if_neg (fun hcc => hcc.2 hmem)]
      · rw [add_path_all_files_eq, if_neg (fun hcc => hd hcc.1)]

/-- Witness for C8 on a concrete index whose `all_files` already holds the
added path once. -/
theorem add_path_all_files_no_dup_witness :
    (IndexState.mk [] [] ["a"] true false).all_files.count "a" ≤ 1 ∧
    ((FileIndex.add_path (IndexState.mk [] [] ["a"] true false) "a" ""
        (some (FileMetadata.mk 1 0 false false))).all_files.count "a" ≤ 1 ∧
     (FileIndex.add_path (FileIndex.add_path (IndexState.mk [] [] ["a"] true false) "a" ""
          (some (FileMetadata.mk 1 0 false false))) "a" ""
          (some (FileMetadata.mk 1 0 false false))).all_files =
       (FileIndex.add_path (IndexState.mk [] [] ["a"] true false) "a" ""
          (some (FileMetadata.mk 1 0 false false))).all_files) :=
  ⟨by decide,
   add_path_all_files_no_dup (IndexState.mk [] [] ["a"] true false) "a" "a" ""
     (some (FileMetadata.mk 1 0 false false)) (by decide)⟩

/-! ## `FileIndex::build` (index.rs lines 126-220) -/

/-- One successful output entry of the ignore-aware parallel walker used
by `build` (index.rs lines 144-209): the entry's path, its parent
directory, and the metadata read for it.  The walker itself (the `ignore`
crate) is external: its output list is the model of "the descendants of
`root` honored by the ignore rules" (plus the root entry itself, which
the callback skips), and it visits each path at most once. -/
structure WalkEntry where
  path : String
  parent : String
  meta : FileMetadata
deriving DecidableEq, Repr

/-- The per-entry body of the walker callback (index.rs lines 155-208):
skip the root, insert into `entries`, record the path under its parent in
`dir_children`, and push non-directories onto the build-local file
vector. -/
def walkStep (root : String) (acc : IndexState × List String) (e : WalkEntry) :
    IndexState × List String :=
  if e.path = root then acc
  else
    ({ acc.1 with entries := assocSet acc.1.entries e.path e.meta,
                  dir_children := pushChild acc.1.dir_children e.parent e.path },
     if e.meta.is_dir then acc.2 else acc.2 ++ [e.path])

/-- `FileIndex::build` (index.rs lines 126-220) as a state transformer:
a call that loses the `is_building` compare-and-swap returns immediately;
otherwise `entries` and `dir_children` are cleared, the walk runs, the
locally collected file vector replaces `all_files`, `is_ready` is set and
`is_building` cleared. -/
def FileIndex.build (root : String) (walk : List WalkEntry) (s0 : IndexState) :
    IndexState :=
  if s0.is_building then s0
  else
    let res := walk.foldl (walkStep root)
      ({ s0 with entries := [], dir_children := [], is_building := true }, [])
    { res.1 with all_files := res.2, is_ready := true, is_building := false }

/-- The `entries` bindings a successful build produces. -/
def buildEntriesSpec (root : String) (walk : List WalkEntry) :
    List (String × FileMetadata) :=
  (walk.filter (fun e => e.path ≠ root)).map (fun e => (e.path, e.meta))

/-- The `all_files` list a successful build produces. -/
def buildFilesSpec (root : String) (walk : List WalkEntry) : List String :=
  (walk.filter (fun e => e.path ≠ root ∧ e.meta.is_dir = false)).map
    (fun e => e.path)

theorem assocSet_of_not_mem {α : Type} (l : List (String × α)) (p : String) (v : α)
    (h : p ∉ l.map Prod.fst) : assocSet l p v = l ++ [(p, v)] := by
  induction l with
  | nil => rfl
  | cons e t ih =>
    simp only [List.map_cons, List.mem_cons, not_or] at h
    have h1 : ¬ e.1 = p := fun hh => h.1 hh.symm
    simp [assocSet, h1, ih h.2]

theorem assocLookup_eq_some_iff {α : Type} (l : List (String × α))
    (hnd : (l.map Prod.fst).Nodup) (p : String) (v : α) :
    assocLookup l p = some v ↔ (p, v) ∈ l := by
  induction l with
  | nil => simp [assocLookup]
  | cons e t ih =>
    simp only [List.map_cons, List.nodup_cons] at hnd
    by_cases h : e.1 = p
    · simp only [assocLookup, h, if_pos rfl, reduceIte]
      constructor
      · intro hv
        have : (p, v) = e := by
          rcases e with ⟨e1, e2⟩
          simp at hv h
          simp [h, hv]
        rw [this]
        exact List.mem_cons_self e t
      · intro hm
        rcases List.mem_cons.mp hm with hh | hh
        · rcases e with ⟨e1, e2⟩
          have : v = e2 := congrArg Prod.snd hh
          simp [this]
        · exfalso
          apply hnd.1
          rw [h]
          exact List.mem_map_of_mem Prod.fst hh
    · simp only [assocLookup, h, reduceIte]
      rw [ih hnd.2]
      constructor
      · exact fun hm => List.mem_cons_of_mem e hm
      · intro hm
        rcases List.mem_cons.mp hm with hh | hh
        · exfalso
          exact h (congrArg Prod.fst hh.symm)
        · exact hh

/-- The key fold characterization of the build walk: from an accumulator
whose entry keys avoid the walked paths, the fold appends exactly the
specified entries and files and leaves the flags and `all_files`
untouched (the files are collected in the build-local vector). -/
theorem build_fold_spec (root : String) :
    ∀ (walk : List WalkEntry) (acc : IndexState × List String),
    (∀ e ∈ walk, e.path ∉ acc.1.entries.map Prod.fst) →
    (walk.map WalkEntry.path).Nodup →
    (walk.foldl (walkStep root) acc).1.entries
        = acc.1.entries ++ buildEntriesSpec root walk ∧
    (walk.foldl (walkStep root) acc).2 = acc.2 ++ buildFilesSpec root walk ∧
    (walk.foldl (walkStep root) acc).1.is_ready = acc.1.is_ready ∧
    (walk.foldl (walkStep root) acc).1.is_building = acc.1.is_building ∧
    (walk.foldl (walkStep root) acc).1.all_files = acc.1.all_files
  | [], acc, _, _ => by
    simp [buildEntriesSpec, buildFilesSpec]
  | e :: t, acc, hfresh, hnd => by
    have hndt : (t.map WalkEntry.path).Nodup := by
      simp only [List.map_cons, List.nodup_cons] at hnd
      exact hnd.2
    by_cases hroot : e.path = root
    · have hstep : walkStep root acc e = acc := by
        simp [walkStep, hroot]
      have ih := build_fold_spec root t acc
        (fun e' he' => hfresh e' (List.mem_cons_of_mem e he')) hndt
      have hE : buildEntriesSpec root (e :: t) = buildEntriesSpec root t := by
        simp [buildEntriesSpec, hroot]
      have hF : buildFilesSpec root (e :: t) = buildFilesSpec root t := by
        simp [buildFilesSpec, hroot]
      rw [List.foldl_cons, hstep, hE, hF]
      exact ih
    · have hfreshE : e.path ∉ acc.1.entries.map Prod.fst :=
        hfresh e (List.mem_cons_self e t)
      have hstep1 : (walkStep root acc e).1.entries =
          acc.1.entries ++ [(e.path, e.meta)] := by
        simp [walkStep, hroot, assocSet_of_not_mem _ _ _ hfreshE]
      have hstep2 : (walkStep root acc e).2 =
          if e.meta.is_dir then acc.2 else acc.2 ++ [e.path] := by
        simp [walkStep, hroot]
      have hstepR : (walkStep root acc e).1.is_ready = acc.1.is_ready := by
        simp [walkStep, hroot]
      have hstepB : (walkStep root acc e).1.is_building = acc.1.is_building := by
        simp [walkStep, hroot]
      have hstepA : (walkStep root acc e).1.all_files = acc.1.all_files := by
        simp [walkStep, hroot]
      have hfresh' : ∀ e' ∈ t, e'.path ∉ (walkStep root acc e).1.entries.map Prod.fst := by
        intro e' he'
        rw [hstep1, List.map_append]
        simp only [List.mem_append, List.map_cons, List.map_nil, List.mem_singleton,
          not_or]
        refine ⟨hfresh e' (List.mem_cons_of_mem e he'), ?_⟩
        simp only [List.map_cons, List.nodup_cons] at hnd
        intro hcontra
        apply hnd.1
        rw [← hcontra]
        exact List.mem_map_of_mem WalkEntry.path he'
      have ih := build_fold_spec root t (walkStep root acc e) hfresh' hndt
      have hE : buildEntriesSpec root (e :: t) =
          (e.path, e.meta) :: buildEntriesSpec root t := by
        simp [buildEntriesSpec, hroot]
      refine ⟨?_, ?_, ?_, ?_, ?_⟩
      · rw [List.foldl_cons, ih.1, hstep1, hE, List.append_assoc]
        rfl
      · rw [List.foldl_cons, ih.2.1, hstep2]
        by_cases hd : e.meta.is_dir
        · have hF : buildFilesSpec root (e :: t) = buildFilesSpec root t := by
            simp [buildFilesSpec, hroot, hd]
          rw [hF, if_pos hd]
        · have hF : buildFilesSpec root (e :: t) =
              e.path :: buildFilesSpec root t := by
            simp [buildFilesSpec, hroot, hd]
          rw [hF, if_neg hd, List.append_assoc]
          rfl
      · rw [List.foldl_cons, ih.2.2.1, hstepR]
      · rw [List.foldl_cons, ih.2.2.2.1, hstepB]
      · rw [List.foldl_cons, ih.2.2.2.2, hstepA]

/-- C6: after a successful `build()` over a walker output `walk` (the
walker visits each path at most once), `entries` holds exactly the
non-root walked paths, each exactly once, and the entries with
`is_dir = false` coincide with `all_files` as a set. -/
theorem build_entries_exact (root : String) (walk : List WalkEntry) (s0 : IndexState)
    (hb : s0.is_building = false) (hnd : (walk.map WalkEntry.path).Nodup) :
    ((FileIndex.build root walk s0).entries.map Prod.fst).Nodup ∧
    (∀ p, p ∈ (FileIndex.build root walk s0).entries.map Prod.fst ↔
      (p ≠ root ∧ p ∈ walk.map WalkEntry.path)) ∧
    (∀ p, p ∈ (FileIndex.build root walk s0).all_files ↔
      ∃ m, assocLookup (FileIndex.build root walk s0).entries p = some m ∧
        m.is_dir = false) := by
  have hfold := build_fold_spec root walk
    ({ s0 with entries := [], dir_children := [], is_building := true }, [])
    (by intro e he; simp) hnd
  have hE : (FileIndex.build root walk s0).entries = buildEntriesSpec root walk := by
    unfold FileIndex.build
    rw [if_neg (by rw [hb]; exact Bool.false_ne_true)]
    simpa using hfold.1
  have hA : (FileIndex.build root walk s0).all_files = buildFilesSpec root walk := by
    unfold FileIndex.build
    rw [if_neg (by rw [hb]; exact Bool.false_ne_true)]
    simpa using hfold.2.1
  have hK : (FileIndex.build root walk s0).entries.map Prod.fst =
      (walk.filter (fun e => e.path ≠ root)).map WalkEntry.path := by
    rw [hE, buildEntriesSpec, List.map_map]
    rfl
  have hnodup : ((FileIndex.build root walk s0).entries.map Prod.fst).Nodup := by
    rw [hK]
    exact List.Nodup.sublist
      (List.Sublist.map WalkEntry.path (List.filter_sublist walk)) hnd
  refine ⟨hnodup, ?_, ?_⟩
  · intro p
    rw [hK]
    constructor
    · intro hp
      rcases List.mem_map.mp hp with ⟨e, hef, hep⟩
      rcases List.mem_filter.mp hef with ⟨hew, hcond⟩
      have hner : e.path ≠ root := by simpa using hcond
      refine ⟨?_, ?_⟩
      · rw [← hep]
        exact hner
      · rw [← hep]
        exact List.mem_map_of_mem WalkEntry.path hew
    · rintro ⟨hnr, hpw⟩
      rcases List.mem_map.mp hpw with ⟨e, hew, hep⟩
      exact List.mem_map.mpr ⟨e, List.mem_filter.mpr
        ⟨hew, by simp only [decide_eq_true_eq]; rw [hep]; exact hnr⟩, hep⟩
  · intro p
    have hndk : ((buildEntriesSpec root walk).map Prod.fst).Nodup := by
      rw [← hE]
      exact hnodup
    rw [hA, hE]
    constructor
    · intro hp
      rcases List.mem_map.mp hp with ⟨e, hef, hep⟩
      rcases List.mem_filter.mp hef with ⟨hew, hcond⟩
      have hc2 : e.path ≠ root ∧ e.meta.is_dir = false := by simpa using hcond
      refine ⟨e.meta, ?_, hc2.2⟩
      rw [assocLookup_eq_some_iff _ hndk]
      exact List.mem_map.mpr ⟨e, List.mem_filter.mpr
        ⟨hew, by simpa using hc2.1⟩, by rw [hep]⟩
    · rintro ⟨m, hlk, hdir⟩
      rw [assocLookup_eq_some_iff _ hndk] at hlk
      rcases List.mem_map.mp hlk with ⟨e, hef, heq⟩
      rcases List.mem_filter.mp hef with ⟨hew, hcond⟩
      have hner : e.path ≠ root := by simpa using hcond
      have hep : e.path = p := congrArg Prod.fst heq
      have hem : e.meta = m := congrArg Prod.snd heq
      apply List.mem_map.mpr
      refine ⟨e, List.mem_filter.mpr ⟨hew, ?_⟩, hep⟩
      simp only [decide_eq_true_eq]
      exact ⟨hner, by rw [hem]; exact hdir⟩

/-- Witness for C6 on a small concrete tree: a directory `r/s` holding a
file `r/s/m`, plus a root file `r/a`. -/
theorem build_entries_exact_witness :
    (IndexState.mk [] [] [] false false).is_building = false ∧
    (([WalkEntry.mk "r" "" (FileMetadata.mk 0 0 true false),
       WalkEntry.mk "r/s" "r" (FileMetadata.mk 0 0 true false),
       WalkEntry.mk "r/s/m" "r/s" (FileMetadata.mk 5 0 false false),
       WalkEntry.mk "r/a" "r" (FileMetadata.mk 2 0 false false)].map
        WalkEntry.path).Nodup) ∧
    (((FileIndex.build "r"
        [WalkEntry.mk "r" "" (FileMetadata.mk 0 0 true false),
         WalkEntry.mk "r/s" "r" (FileMetadata.mk 0 0 true false),
         WalkEntry.mk "r/s/m" "r/s" (FileMetadata.mk 5 0 false false),
         WalkEntry.mk "r/a" "r" (FileMetadata.mk 2 0 false false)]
        (IndexState.mk [] [] [] false false)).entries.map Prod.fst).Nodup ∧
    (∀ p, p ∈ (FileIndex.build "r"
        [WalkEntry.mk "r" "" (FileMetadata.mk 0 0 true false),
         WalkEntry.mk "r/s" "r" (FileMetadata.mk 0 0 true false),
         WalkEntry.mk "r/s/m" "r/s" (FileMetadata.mk 5 0 false false),
         WalkEntry.mk "r/a" "r" (FileMetadata.mk 2 0 false false)]
        (IndexState.mk [] [] [] false false)).entries.map Prod.fst ↔
      (p ≠ "r" ∧ p ∈ [WalkEntry.mk "r" "" (FileMetadata.mk 0 0 true false),
         WalkEntry.mk "r/s" "r" (FileMetadata.mk 0 0 true false),
         WalkEntry.mk "r/s/m" "r/s" (FileMetadata.mk 5 0 false false),
         WalkEntry.mk "r/a" "r" (FileMetadata.mk 2 0 false false)].map
          WalkEntry.path)) ∧
    (∀ p, p ∈ (FileIndex.build "r"
        [WalkEntry.mk "r" "" (FileMetadata.mk 0 0 true false),
         WalkEntry.mk "r/s" "r" (FileMetadata.mk 0 0 true false),
         WalkEntry.mk "r/s/m" "r/s" (FileMetadata.mk 5 0 false false),
         WalkEntry.mk "r/a" "r" (FileMetadata.mk 2 0 false false)]
        (IndexState.mk [] [] [] false false)).all_files ↔
      ∃ m, assocLookup (FileIndex.build "r"
        [WalkEntry.mk "r" "" (FileMetadata.mk 0 0 true false),
         WalkEntry.mk "r/s" "r" (FileMetadata.mk 0 0 true false),
         WalkEntry.mk "r/s/m" "r/s" (FileMetadata.mk 5 0 false false),
         WalkEntry.mk "r/a" "r" (FileMetadata.mk 2 0 false false)]
        (IndexState.mk [] [] [] false false)).entries p = some m ∧
        m.is_dir = false)) :=
  ⟨rfl, by decide,
    build_entries_exact "r"
      [WalkEntry.mk "r" "" (FileMetadata.mk 0 0 true false),
       WalkEntry.mk "r/s" "r" (FileMetadata.mk 0 0 true false),
       WalkEntry.mk "r/s/m" "r/s" (FileMetadata.mk 5 0 false false),
       WalkEntry.mk "r/a" "r" (FileMetadata.mk 2 0 false false)]
      (IndexState.mk [] [] [] false false) rfl (by decide)⟩

/-! ## `FileIndex::list` and the build/refresh interleaving (C1)

`list` checks `is_ready`, not `is_building` (index.rs line 251).  The
machine below interleaves the builder thread's stores in program order
with `refresh` calls and treats `list` as a pure observation. -/

/-- `FileIndex::list` (index.rs lines 248-328).  The compiled glob matcher
is abstracted as `matcher` (compilation lives in the external `globset`
crate); relative-path conversion is the identity because the model stores
root-relative strings.  The readiness check precedes everything else. -/
def FileIndex.list (s : IndexState) (pattern : String) (only_files : Bool)
    (matcher : String → Bool) : Except GearError (List String) :=
  if s.is_ready = false then .error .indexNotReady
  else
    let match_all := pattern = "**/*" ∨ pattern = "**"
    if only_files then
      if match_all then .ok s.all_files
      else .ok (s.all_files.filter matcher)
    else
      if match_all then .ok (s.entries.map Prod.fst)
      else .ok ((s.entries.map Prod.fst).filter matcher)

/-- `FileIndex::glob` = `list(pattern, true)` (index.rs lines 331-333). -/
def FileIndex.glob (s : IndexState) (pattern : String)
    (matcher : String → Bool) : Except GearError (List String) :=
  FileIndex.list s pattern true matcher

/-- Program counter of the build/refresh activity on one index. -/
inductive BuildPc where
  | initPending    -- construction done, the background build not yet started
  | working (k : Nat) -- CAS won, entries cleared, k walk entries applied
  | filesDone      -- index.rs line 212: all_files replaced by the local vector
  | readyDone      -- index.rs line 216: is_ready stored true
  | idle           -- index.rs line 217: is_building stored false
  | refreshPending -- refresh stored is_ready := false and will call build
deriving DecidableEq, Repr

/-- An index together with the build activity's program counter. -/
structure IndexSys where
  pc : BuildPc
  st : IndexState

/-- Small-step transitions of `build` (index.rs 126-220) and `refresh`
(index.rs 242-245) as the facade drives them: the construction's
background build, refresh calls (whose own `build` call is a no-op when it
loses the CAS), and the builder's stores in program order — CAS plus the
clears, one walker callback per entry, the `all_files` swap, the
`is_ready := true` store, and finally the `is_building := false` store. -/
inductive IndexStep (root : String) (walk : List WalkEntry) :
    IndexSys → IndexSys → Prop where
  | buildStartInit (st : IndexState) (h : st.is_building = false) :
      IndexStep root walk ⟨.initPending, st⟩
        ⟨.working 0, { st with entries := [], dir_children := [], is_building := true }⟩
  | buildStartRefresh (st : IndexState) (h : st.is_building = false) :
      IndexStep root walk ⟨.refreshPending, st⟩
        ⟨.working 0, { st with entries := [], dir_children := [], is_building := true }⟩
  | buildWork (st : IndexState) (k : Nat) (h : k < walk.length) :
      IndexStep root walk ⟨.working k, st⟩
        ⟨.working (k + 1), (walkStep root (st, []) walk[k]).1⟩
  | buildFiles (st : IndexState) :
      IndexStep root walk ⟨.working walk.length, st⟩
        ⟨.filesDone, { st with all_files := buildFilesSpec root walk }⟩
  | buildSetReady (st : IndexState) :
      IndexStep root walk ⟨.filesDone, st⟩ ⟨.readyDone, { st with is_ready := true }⟩
  | buildClearBuilding (st : IndexState) :
      IndexStep root walk ⟨.readyDone, st⟩ ⟨.idle, { st with is_building := false }⟩
  | refreshStart (st : IndexState) :
      IndexStep root walk ⟨.idle, st⟩ ⟨.refreshPending, { st with is_ready := false }⟩
  | refreshDuringBuild (pc : BuildPc) (st : IndexState) (h : pc ≠ .idle) :
      IndexStep root walk ⟨pc, st⟩ ⟨pc, { st with is_ready := false }⟩

/-- States reachable by the build/refresh activity from a fresh index
(`FileIndex::new`, index.rs lines 113-123). -/
inductive IndexReach (root : String) (walk : List WalkEntry) : IndexSys → Prop where
  | init : IndexReach root walk ⟨.initPending, IndexState.mk [] [] [] false false⟩
  | step {a b : IndexSys} : IndexReach root walk a → IndexStep root walk a b →
      IndexReach root walk b

/-- The inductive invariant tying the program counter to the flags and the
populated part of the index. -/
def IndexInv (root : String) (walk : List WalkEntry) (sys : IndexSys) : Prop :=
  match sys.pc with
  | .initPending => sys.st.is_ready = false ∧ sys.st.is_building = false
  | .refreshPending => sys.st.is_ready = false ∧ sys.st.is_building = false
  | .working k => sys.st.is_building = true ∧ sys.st.is_ready = false ∧
      k ≤ walk.length ∧ sys.st.entries = buildEntriesSpec root (walk.take k)
  | .filesDone => sys.st.is_building = true ∧ sys.st.is_ready = false ∧
      sys.st.entries = buildEntriesSpec root walk ∧
      sys.st.all_files = buildFilesSpec root walk
  | .readyDone => sys.st.is_building = true ∧
      sys.st.entries = buildEntriesSpec root walk ∧
      sys.st.all_files = buildFilesSpec root walk
  | .idle => sys.st.is_building = false

theorem buildEntriesSpec_keys_sub (root : String) (l : List WalkEntry) :
    ∀ x ∈ (buildEntriesSpec root l).map Prod.fst, x ∈ l.map WalkEntry.path := by
  intro x hx
  rcases List.mem_map.mp hx with ⟨pr, hpr, hfst⟩
  rcases List.mem_map.mp hpr with ⟨e, hef, hpe⟩
  have hew := (List.mem_filter.mp hef).1
  apply List.mem_map.mpr
  refine ⟨e, hew, ?_⟩
  rw [← hfst, ← hpe]

theorem getElem_path_not_mem_take (walk : List WalkEntry) (k : Nat) (h : k < walk.length)
    (hnd : (walk.map WalkEntry.path).Nodup) :
    walk[k].path ∉ (walk.take k).map WalkEntry.path := by
  intro hmem
  have hlen : k < (walk.map WalkEntry.path).length := by simpa using h
  have hnd2 : ((walk.map WalkEntry.path).take k ++
      (walk.map WalkEntry.path).drop k).Nodup := by
    rw [List.take_append_drop]
    exact hnd
  have hdisj := (List.nodup_append.mp hnd2).2.2
  have hmem1 : walk[k].path ∈ (walk.map WalkEntry.path).take k := by
    rw [← List.map_take]
    exact hmem
  have hmem2 : walk[k].path ∈ (walk.map WalkEntry.path).drop k := by
    rw [← List.getElem_cons_drop _ _ hlen]
    have hk : (walk.map WalkEntry.path)[k] = walk[k].path := by simp
    rw [hk]
    exact List.mem_cons_self _ _
  exact hdisj hmem1 hmem2

theorem buildEntriesSpec_take_succ (root : String) (walk : List WalkEntry)
    (k : Nat) (h : k < walk.length) :
    buildEntriesSpec root (walk.take (k + 1)) =
      buildEntriesSpec root (walk.take k) ++
        (if walk[k].path = root then [] else [(walk[k].path, walk[k].meta)]) := by
  rw [List.take_succ]
  rw [List.getElem?_eq_getElem h]
  simp only [Option.toList_some]
  rw [buildEntriesSpec, List.filter_append, List.map_append]
  rw [buildEntriesSpec]
  congr 1
  by_cases hr : walk[k].path = root
  · simp [hr]
  · simp [hr]

/-- Every reachable system state satisfies the invariant. -/
theorem indexReach_inv (root : String) (walk : List WalkEntry)
    (hnd : (walk.map WalkEntry.path).Nodup) :
    ∀ sys, IndexReach root walk sys → IndexInv root walk sys := by
  intro sys h
  induction h with
  | init => exact ⟨rfl, rfl⟩
  | step hreach hstep ih =>
    cases hstep with
    | buildStartInit st hb =>
      exact ⟨rfl, ih.1, Nat.zero_le _, by simp [buildEntriesSpec]⟩
    | buildStartRefresh st hb =>
      exact ⟨rfl, ih.1, Nat.zero_le _, by simp [buildEntriesSpec]⟩
    | buildWork st k hk =>
      rcases ih with ⟨hbuild, hready, hkle, hent⟩
      by_cases hr : walk[k].path = root
      · refine ⟨by simp [walkStep, hr]; exact hbuild,
          by simp [walkStep, hr]; exact hready, hk, ?_⟩
        rw [buildEntriesSpec_take_succ root walk k hk, if_pos hr, List.append_nil]
        simp only [walkStep, hr, if_pos rfl, reduceIte]
        exact hent
      · refine ⟨by simp [walkStep, hr]; exact hbuild,
          by simp [walkStep, hr]; exact hready, hk, ?_⟩
        rw [buildEntriesSpec_take_succ root walk k hk, if_neg hr]
        have hfresh : walk[k].path ∉ st.entries.map Prod.fst := by
          rw [hent]
          intro hmem
          exact getElem_path_not_mem_take walk k hk hnd
            (buildEntriesSpec_keys_sub root (walk.take k) _ hmem)
        simp only [walkStep, hr, reduceIte]
        rw [assocSet_of_not_mem _ _ _ hfresh, hent]
    | buildFiles st =>
      rcases ih with ⟨hbuild, hready, hkle, hent⟩
      exact ⟨hbuild, hready, by rw [hent, List.take_length], rfl⟩
    | buildSetReady st =>
      rcases ih with ⟨hbuild, _, hent, hfiles⟩
      exact ⟨hbuild, hent, hfiles⟩
    | buildClearBuilding st => exact rfl
    | refreshStart st => exact ⟨rfl, ih⟩
    | refreshDuringBuild pc st hpc =>
      cases pc with
      | initPending => exact ⟨rfl, ih.2⟩
      | refreshPending => exact ⟨rfl, ih.2⟩
      | working k =>
        rcases ih with ⟨h1, _, h3, h4⟩
        exact ⟨h1, rfl, h3, h4⟩
      | filesDone =>
        rcases ih with ⟨h1, _, h3, h4⟩
        exact ⟨h1, rfl, h3, h4⟩
      | readyDone =>
        rcases ih with ⟨h1, h2, h3⟩
        exact ⟨h1, h2, h3⟩
      | idle => exact absurd rfl hpc

/-- C1 (amended): in every reachable state with `is_building = true`, a
`list` call (hence `glob`) either fails with `IndexNotReady` — which
happens exactly when `is_ready` is false — or sees the completely
repopulated `entries` and `all_files` of the running build: `build`
stores `is_ready := true` only after full population, and clears
`is_building` only afterwards, so no query observes entries or files that
were cleared but not yet repopulated. -/
theorem list_during_build (root : String) (walk : List WalkEntry)
    (sys : IndexSys) (hreach : IndexReach root walk sys)
    (hnd : (walk.map WalkEntry.path).Nodup)
    (hb : sys.st.is_building = true)
    (pattern : String) (only_files : Bool) (matcher : String → Bool) :
    FileIndex.list sys.st pattern only_files matcher = .error .indexNotReady ∨
    (sys.st.entries = buildEntriesSpec root walk ∧
      sys.st.all_files = buildFilesSpec root walk) := by
  have hinv := indexReach_inv root walk hnd sys hreach
  rcases sys with ⟨pc, st⟩
  cases pc with
  | initPending => exact absurd hb (by rw [hinv.2]; exact Bool.false_ne_true)
  | refreshPending => exact absurd hb (by rw [hinv.2]; exact Bool.false_ne_true)
  | idle => exact absurd hb (by rw [hinv]; exact Bool.false_ne_true)
  | working k =>
    left
    rw [FileIndex.list, if_pos hinv.2.1]
  | filesDone =>
    left
    rw [FileIndex.list, if_pos hinv.2.1]
  | readyDone => exact Or.inr ⟨hinv.2.1, hinv.2.2⟩

/-- Counterexample to C1 as stated: right after the build stores
`is_ready := true` (index.rs line 216) and before it clears `is_building`
(line 217), `is_building` is still true yet `list` succeeds instead of
failing with `IndexNotReady`. -/
theorem list_during_build_cex :
    IndexReach "r" [WalkEntry.mk "r/a" "r" (FileMetadata.mk 1 0 false false)]
      ⟨.readyDone, IndexState.mk [("r/a", FileMetadata.mk 1 0 false false)]
        [("r", ["r/a"])] ["r/a"] true true⟩ ∧
    (IndexState.mk [("r/a", FileMetadata.mk 1 0 false false)]
        [("r", ["r/a"])] ["r/a"] true true).is_building = true ∧
    FileIndex.list (IndexState.mk [("r/a", FileMetadata.mk 1 0 false false)]
        [("r", ["r/a"])] ["r/a"] true true) "**/*" true (fun _ => true) =
      .ok ["r/a"] := by
  refine ⟨?_, rfl, rfl⟩
  have r0 : IndexReach "r" [WalkEntry.mk "r/a" "r" (FileMetadata.mk 1 0 false false)]
      ⟨.initPending, IndexState.mk [] [] [] false false⟩ := .init
  have r1 := r0.step (IndexStep.buildStartInit _ rfl)
  have r2 := r1.step (IndexStep.buildWork _ 0 (by decide))
  have r3 := r2.step (IndexStep.buildFiles _)
  have r4 := r3.step (IndexStep.buildSetReady _)
  exact r4

/-- Witness for the amended C1 at the same reachable state. -/
theorem list_during_build_witness :
    (([WalkEntry.mk "r/a" "r" (FileMetadata.mk 1 0 false false)].map
        WalkEntry.path).Nodup) ∧
    (FileIndex.list (IndexState.mk [("r/a", FileMetadata.mk 1 0 false false)]
        [("r", ["r/a"])] ["r/a"] true true) "**/*" true (fun _ => true) =
        .error .indexNotReady ∨
      ((IndexState.mk [("r/a", FileMetadata.mk 1 0 false false)]
          [("r", ["r/a"])] ["r/a"] true true).entries =
        buildEntriesSpec "r" [WalkEntry.mk "r/a" "r" (FileMetadata.mk 1 0 false false)] ∧
       (IndexState.mk [("r/a", FileMetadata.mk 1 0 false false)]
          [("r", ["r/a"])] ["r/a"] true true).all_files =
        buildFilesSpec "r" [WalkEntry.mk "r/a" "r" (FileMetadata.mk 1 0 false false)])) := by
  refine ⟨by decide, ?_⟩
  have r0 : IndexReach "r" [WalkEntry.mk "r/a" "r" (FileMetadata.mk 1 0 false false)]
      ⟨.initPending, IndexState.mk [] [] [] false false⟩ := .init
  have r1 := r0.step (IndexStep.buildStartInit _ rfl)
  have r2 := r1.step (IndexStep.buildWork _ 0 (by decide))
  have r3 := r2.step (IndexStep.buildFiles _)
  have r4 := r3.step (IndexStep.buildSetReady _)
  exact list_during_build "r" [WalkEntry.mk "r/a" "r" (FileMetadata.mk 1 0 false false)]
    ⟨.readyDone, IndexState.mk [("r/a", FileMetadata.mk 1 0 false false)]
      [("r", ["r/a"])] ["r/a"] true true⟩ r4 (by decide) rfl "**/*" true (fun _ => true)

/-! ## Watcher event processing and `pending_changes` (watcher.rs, mod.rs) -/

/-- The subset of `notify::EventKind` shapes the translation table of
`process_events` (watcher.rs lines 190-211) distinguishes. -/
inductive RawEventKind where
  | createFile
  | createFolder
  | createAny
  | modifyData
  | renameBoth
  | renameFrom
  | renameTo
  | removeFile
  | removeFolder
  | removeAny
  | otherKind
deriving DecidableEq, Repr

/-- A raw event from the platform watcher: kind plus affected paths. -/
structure RawEvent where
  kind : RawEventKind
  paths : List String
deriving DecidableEq, Repr

/-- The raw-to-semantic translation plus debouncer feed for one raw event
(watcher.rs lines 189-217): renames with two paths are debounced once on
the `from` path, renames with fewer paths are discarded, other kinds are
debounced per path, unknown kinds are ignored. -/
def feedRawEvent (d : Debouncer) (e : RawEvent) (now : Nat) : Debouncer :=
  match e.kind with
  | .createFile | .createFolder | .createAny =>
    e.paths.foldl (fun d p => d.add_event p .created now) d
  | .modifyData => e.paths.foldl (fun d p => d.add_event p .modified now) d
  | .renameBoth =>
    match e.paths with
    | p0 :: p1 :: _ => d.add_event p0 (.renamed p0 p1) now
    | _ => d
  | .renameFrom => e.paths.foldl (fun d p => d.add_event p .deleted now) d
  | .renameTo => e.paths.foldl (fun d p => d.add_event p .created now) d
  | .removeFile | .removeFolder | .removeAny =>
    e.paths.foldl (fun d p => d.add_event p .deleted now) d
  | .otherKind => d

/-- A `FileWatcher`'s observable state (watcher.rs lines 131-142): the
channel of raw events not yet drained, and the debouncer. -/
structure FileWatcherSt where
  queue : List RawEvent
  debouncer : Debouncer
deriving DecidableEq, Repr

/-- `FileWatcher::process_events` (watcher.rs lines 178-221): drain every
queued raw event into the debouncer, then flush the debounce-expired
entries. -/
def FileWatcher.process_events (w : FileWatcherSt) (now : Nat) :
    List FileChange × FileWatcherSt :=
  let d1 := w.queue.foldl (fun d e => feedRawEvent d e now) w.debouncer
  ((Debouncer.flush d1 now).1, ⟨[], (Debouncer.flush d1 now).2⟩)

/-- The parts of a `FileSystem` (mod.rs lines 31-38) that
`pending_changes` can touch: the index and the optional watcher. -/
structure FileSystemSt where
  index : IndexState
  watcher : Option FileWatcherSt
deriving DecidableEq, Repr

/-- `FileSystem::pending_changes` (mod.rs lines 352-361): with a watcher,
process events and return only the count; without one, return 0. -/
def FileSystem.pending_changes (fs : FileSystemSt) (now : Nat) :
    Nat × FileSystemSt :=
  match fs.watcher with
  | some w =>
    ((FileWatcher.process_events w now).1.length,
     { fs with watcher := some (FileWatcher.process_events w now).2 })
  | none => (0, fs)

/-- C10: `pending_changes()` is not a pure observer: it drains the raw
event queue into the debouncer, removes every debounce-expired entry from
the pending map, and returns only the count of the flushed changes; the
flushed changes themselves are discarded — in particular the index is
not touched. -/
theorem pending_changes_spec (fs : FileSystemSt) (w : FileWatcherSt) (now : Nat)
    (h : fs.watcher = some w) :
    (FileSystem.pending_changes fs now).2.index = fs.index ∧
    (FileSystem.pending_changes fs now).1 =
      (Debouncer.flush
        (w.queue.foldl (fun d e => feedRawEvent d e now) w.debouncer) now).1.length ∧
    (FileSystem.pending_changes fs now).2.watcher =
      some ⟨[], (Debouncer.flush
        (w.queue.foldl (fun d e => feedRawEvent d e now) w.debouncer) now).2⟩ ∧
    (Debouncer.flush
        (w.queue.foldl (fun d e => feedRawEvent d e now) w.debouncer) now).2.pending =
      (w.queue.foldl (fun d e => feedRawEvent d e now) w.debouncer).pending.filter
        (fun e => !decide ((w.queue.foldl (fun d e => feedRawEvent d e now)
          w.debouncer).duration ≤ now - e.2.2)) ∧
    ∀ e ∈ (Debouncer.flush
        (w.queue.foldl (fun d e => feedRawEvent d e now) w.debouncer) now).2.pending,
      now - e.2.2 <
        (w.queue.foldl (fun d e => feedRawEvent d e now) w.debouncer).duration := by
  have hp : FileSystem.pending_changes fs now =
      ((FileWatcher.process_events w now).1.length,
       { fs with watcher := some (FileWatcher.process_events w now).2 }) := by
    rw [FileSystem.pending_changes, h]
  refine ⟨by rw [hp], by rw [hp]; rfl, by rw [hp]; rfl, rfl, ?_⟩
  intro e he
  have hmem := List.mem_filter.mp he
  have hcond := hmem.2
  simp only [Bool.not_eq_true', decide_eq_false_iff_not, not_le] at hcond
  exact hcond

/-- Witness for C10 on a watcher with one queued create event and an
already-expired pending entry. -/
theorem pending_changes_spec_witness :
    (FileSystemSt.mk (IndexState.mk [] [] [] true false)
        (some (FileWatcherSt.mk [RawEvent.mk .createFile ["n.txt"]]
          (Debouncer.mk [("old.txt", (ChangeKind.modified, 0))] 50)))).watcher =
      some (FileWatcherSt.mk [RawEvent.mk .createFile ["n.txt"]]
        (Debouncer.mk [("old.txt", (ChangeKind.modified, 0))] 50)) ∧
    (FileSystem.pending_changes (FileSystemSt.mk (IndexState.mk [] [] [] true false)
        (some (FileWatcherSt.mk [RawEvent.mk .createFile ["n.txt"]]
          (Debouncer.mk [("old.txt", (ChangeKind.modified, 0))] 50)))) 100).2.index =
      IndexState.mk [] [] [] true false ∧
    (FileSystem.pending_changes (FileSystemSt.mk (IndexState.mk [] [] [] true false)
        (some (FileWatcherSt.mk [RawEvent.mk .createFile ["n.txt"]]
          (Debouncer.mk [("old.txt", (ChangeKind.modified, 0))] 50)))) 100).1 = 1 := by
  refine ⟨rfl, ?_, ?_⟩
  · exact (pending_changes_spec
      (FileSystemSt.mk (IndexState.mk [] [] [] true false)
        (some (FileWatcherSt.mk [RawEvent.mk .createFile ["n.txt"]]
          (Debouncer.mk [("old.txt", (ChangeKind.modified, 0))] 50))))
      (FileWatcherSt.mk [RawEvent.mk .createFile ["n.txt"]]
        (Debouncer.mk [("old.txt", (ChangeKind.modified, 0))] 50)) 100 rfl).1
  · have h2 := (pending_changes_spec
      (FileSystemSt.mk (IndexState.mk [] [] [] true false)
        (some (FileWatcherSt.mk [RawEvent.mk .createFile ["n.txt"]]
          (Debouncer.mk [("old.txt", (ChangeKind.modified, 0))] 50))))
      (FileWatcherSt.mk [RawEvent.mk .createFile ["n.txt"]]
        (Debouncer.mk [("old.txt", (ChangeKind.modified, 0))] 50)) 100 rfl).2.1
    rw [h2]
    decide

/-! ## Parallel grep (src/fs/searcher.rs) -/

/-- `SearchOptions` (searcher.rs lines 19-35). -/
structure SearchOptions where
  case_sensitive : Bool
  max_results : Nat
  max_file_size : Nat
  context_lines : Nat
deriving DecidableEq, Repr

/-- `SearchResult` (searcher.rs lines 70-90); `line_number` is 1-indexed. -/
structure SearchResult where
  file : String
  line_number : Nat
  content : String
  context_before : List String
  context_after : List String
deriving DecidableEq, Repr

/-- A file as the grep pipeline sees it: root-relative path, its decoded
text lines, and the walk metadata used for filtering.  `utf8Valid` models
whether the on-disk bytes decode (searcher.rs lines 278-298: unreadable
or non-UTF-8 files yield no results). -/
structure GFile where
  relPath : String
  lines : List String
  size : Nat
  is_binary : Bool
  utf8Valid : Bool
deriving DecidableEq, Repr

/-- `Searcher::collect_files` (searcher.rs lines 207-253): the
ignore-aware walk output is the input list (directories excluded); keep
the files within the size bound that match the glob and are not binary. -/
def Searcher.collect_files (tree : List GFile) (gm : String → Bool)
    (max_size : Nat) : List GFile :=
  tree.filter (fun f => decide (f.size ≤ max_size) && gm f.relPath && !f.is_binary)

/-- The line loop of `Searcher::search_file` (searcher.rs lines 309-363)
over the remaining `(index, line)` pairs, threading the result counter
and the cancellation flag (sequentialized: the `fetch_update` succeeds
whenever the `cnt < maxR` guard just passed, and sets the flag and stops
when the cap is reached). -/
def scanLines (rel : String) (rx : String → Bool) (allLines : List String)
    (ctx maxR : Nat) :
    List (Nat × String) → Nat → Bool → List SearchResult × Nat × Bool
  | [], cnt, c => ([], cnt, c)
  | (i, line) :: rest, cnt, c =>
    if c || decide (maxR ≤ cnt) then ([], cnt, c)
    else if rx line then
      let r : SearchResult :=
        { file := rel, line_number := i + 1, content := line,
          context_before :=
            if 0 < ctx then (allLines.take i).drop (i - ctx) else [],
          context_after :=
            if 0 < ctx then
              (allLines.drop (i + 1)).take (min (i + 1 + ctx) allLines.length - (i + 1))
            else [] }
      if maxR ≤ cnt + 1 then ([r], cnt + 1, true)
      else
        let res := scanLines rel rx allLines ctx maxR rest (cnt + 1) c
        (r :: res.1, res.2)
    else scanLines rel rx allLines ctx maxR rest cnt c

/-- `Searcher::search_file` (searcher.rs lines 256-366): nothing when
already cancelled or the file cannot be read/decoded; otherwise scan the
enumerated lines. -/
def Searcher.search_file (f : GFile) (rx : String → Bool) (opts : SearchOptions)
    (cnt : Nat) (c : Bool) : List SearchResult × Nat × Bool :=
  if c then ([], cnt, c)
  else if f.utf8Valid = false then ([], cnt, c)
  else scanLines f.relPath rx f.lines opts.context_lines opts.max_results
    f.lines.enum cnt c

/-- One file's contribution inside the `par_iter().flat_map(...)` of
`grep_internal` (searcher.rs lines 176-198): skip when cancelled or the
counter reached the cap, else search the file and append its results. -/
def grepFileStep (opts : SearchOptions) (rx : String → Bool)
    (acc : List SearchResult × Nat × Bool) (f : GFile) :
    List SearchResult × Nat × Bool :=
  if acc.2.2 || decide (opts.max_results ≤ acc.2.1) then acc
  else
    let res := Searcher.search_file f rx opts acc.2.1 acc.2.2
    (acc.1 ++ res.1, res.2)

/-- `Searcher::grep_internal` (searcher.rs lines 143-204), sequentialized
(rayon's ordered flat_map/collect over the file list), followed by the
truncation to `max_results` (line 201).  The compiled regex is abstracted
as `rx`, the compiled glob matcher as `gm`. -/
def Searcher.grep_internal (tree : List GFile) (rx gm : String → Bool)
    (opts : SearchOptions) : List SearchResult :=
  ((Searcher.collect_files tree gm opts.max_file_size).foldl
    (grepFileStep opts rx) ([], 0, false)).1.take opts.max_results

theorem scanLines_mem (rel : String) (rx : String → Bool) (allLines : List String)
    (ctx maxR : Nat) :
    ∀ (l : List (Nat × String)) (cnt : Nat) (c : Bool),
    ∀ r ∈ (scanLines rel rx allLines ctx maxR l cnt c).1,
      r.file = rel ∧ rx r.content = true ∧
        ∃ i, (i, r.content) ∈ l ∧ r.line_number = i + 1
  | [], cnt, c => by simp [scanLines]
  | (i, line) :: rest, cnt, c => by
    intro r hr
    rw [scanLines] at hr
    by_cases hg : (c || decide (maxR ≤ cnt)) = true
    · rw [if_pos hg] at hr
      simp at hr
    · rw [if_neg hg] at hr
      by_cases hrx : rx line = true
      · rw [if_pos hrx] at hr
        by_cases hcap : maxR ≤ cnt + 1
        · rw [if_pos hcap] at hr
          rcases List.mem_singleton.mp hr with rfl
          exact ⟨rfl, hrx, i, List.mem_cons_self _ _, rfl⟩
        · rw [if_neg hcap] at hr
          rcases List.mem_cons.mp hr with rfl | htail
          · exact ⟨rfl, hrx, i, List.mem_cons_self _ _, rfl⟩
          · rcases scanLines_mem rel rx allLines ctx maxR rest (cnt + 1) c r htail
              with ⟨h1, h2, j, hj, hln⟩
            exact ⟨h1, h2, j, List.mem_cons_of_mem _ hj, hln⟩
      · rw [if_neg hrx] at hr
        rcases scanLines_mem rel rx allLines ctx maxR rest cnt c r hr
          with ⟨h1, h2, j, hj, hln⟩
        exact ⟨h1, h2, j, List.mem_cons_of_mem _ hj, hln⟩

theorem scanLines_sorted (rel : String) (rx : String → Bool) (allLines : List String)
    (ctx maxR : Nat) :
    ∀ (l : List (Nat × String)) (cnt : Nat) (c : Bool),
    (l.map Prod.fst).Pairwise (· < ·) →
    ((scanLines rel rx allLines ctx maxR l cnt c).1.map
      (fun r => r.line_number)).Pairwise (· < ·)
  | [], cnt, c, _ => by simp [scanLines]
  | (i, line) :: rest, cnt, c, hsort => by
    have hhead : ∀ j ∈ rest.map Prod.fst, i < j :=
      (List.pairwise_cons.mp (by simpa using hsort)).1
    have htail : (rest.map Prod.fst).Pairwise (· < ·) :=
      (List.pairwise_cons.mp (by simpa using hsort)).2
    rw [scanLines]
    by_cases hg : (c || decide (maxR ≤ cnt)) = true
    · rw [if_pos hg]
      simp
    · rw [if_neg hg]
      by_cases hrx : rx line = true
      · rw [if_pos hrx]
        by_cases hcap : maxR ≤ cnt + 1
        · rw [if_pos hcap]
          simp
        · rw [if_neg hcap]
          simp only [List.map_cons, List.pairwise_cons]
          constructor
          · intro x hx
            rcases List.mem_map.mp hx with ⟨r2, hr2, hln⟩
            rcases scanLines_mem rel rx allLines ctx maxR rest (cnt + 1) c r2 hr2
              with ⟨_, _, j, hj, hln2⟩
            have hij : i < j := hhead j (List.mem_map.mpr ⟨(j, r2.content), hj, rfl⟩)
            rw [← hln, hln2]
            omega
          · exact scanLines_sorted rel rx allLines ctx maxR rest (cnt + 1) c htail
      · rw [if_neg hrx]
        exact scanLines_sorted rel rx allLines ctx maxR rest cnt c htail

theorem search_file_mem (f : GFile) (rx : String → Bool) (opts : SearchOptions)
    (cnt : Nat) (c : Bool) :
    ∀ r ∈ (Searcher.search_file f rx opts cnt c).1,
      r.file = f.relPath ∧ rx r.content = true := by
  intro r hr
  rw [Searcher.search_file] at hr
  by_cases hc : c = true
  · rw [if_pos hc] at hr
    simp at hr
  · rw [if_neg hc] at hr
    by_cases hu : f.utf8Valid = false
    · rw [if_pos hu] at hr
      simp at hr
    · rw [if_neg hu] at hr
      rcases scanLines_mem f.relPath rx f.lines opts.context_lines opts.max_results
        f.lines.enum cnt c r hr with ⟨h1, h2, _⟩
      exact ⟨h1, h2⟩

theorem search_file_sorted (f : GFile) (rx : String → Bool) (opts : SearchOptions)
    (cnt : Nat) (c : Bool) :
    ((Searcher.search_file f rx opts cnt c).1.map
      (fun r => r.line_number)).Pairwise (· < ·) := by
  rw [Searcher.search_file]
  by_cases hc : c = true
  · rw [if_pos hc]
    simp
  · rw [if_neg hc]
    by_cases hu : f.utf8Valid = false
    · rw [if_pos hu]
      simp
    · rw [if_neg hu]
      apply scanLines_sorted
      rw [List.enum_map_fst]
      exact List.pairwise_lt_range _

/-- The per-file same-file line ordering, as the pairwise relation the
grep results satisfy. -/
def SameFileAscending (l : List SearchResult) : Prop :=
  l.Pairwise (fun a b => a.file = b.file → a.line_number < b.line_number)

/-- Invariant of the sequential grep fold: every accumulated result
matches the regex and the glob, comes from an already-processed file, and
results of one file appear in ascending line order. -/
def GrepInv (rx gm : String → Bool) (done : List String)
    (acc : List SearchResult × Nat × Bool) : Prop :=
  (∀ r ∈ acc.1, rx r.content = true ∧ gm r.file = true ∧ r.file ∈ done) ∧
  SameFileAscending acc.1

theorem grep_fold_inv (opts : SearchOptions) (rx gm : String → Bool) :
    ∀ (fs : List GFile) (acc : List SearchResult × Nat × Bool) (done : List String),
    GrepInv rx gm done acc →
    (∀ f ∈ fs, gm f.relPath = true) →
    (∀ f ∈ fs, f.relPath ∉ done) →
    (fs.map GFile.relPath).Nodup →
    GrepInv rx gm (done ++ fs.map GFile.relPath)
      (fs.foldl (grepFileStep opts rx) acc)
  | [], acc, done, hinv, _, _, _ => by simpa using hinv
  | f :: t, acc, done, hinv, hgm, hdone, hnd => by
    have hndt : (t.map GFile.relPath).Nodup := by
      simp only [List.map_cons, List.nodup_cons] at hnd
      exact hnd.2
    have hfnott : f.relPath ∉ t.map GFile.relPath := by
      simp only [List.map_cons, List.nodup_cons] at hnd
      exact hnd.1
    have hgmt : ∀ g ∈ t, gm g.relPath = true :=
      fun g hg => hgm g (List.mem_cons_of_mem f hg)
    have hdonet : ∀ g ∈ t, g.relPath ∉ done ++ [f.relPath] := by
      intro g hg hmem
      rcases List.mem_append.mp hmem with h1 | h1
      · exact hdone g (List.mem_cons_of_mem f hg) h1
      · apply hfnott
        rw [← List.mem_singleton.mp h1]
        exact List.mem_map_of_mem GFile.relPath hg
    have happ : done ++ (f :: t).map GFile.relPath =
        (done ++ [f.relPath]) ++ t.map GFile.relPath := by
      simp
    rw [List.foldl_cons, happ]
    by_cases hskip : (acc.2.2 || decide (opts.max_results ≤ acc.2.1)) = true
    · have hstep : grepFileStep opts rx acc f = acc := by
        rw [grepFileStep, if_pos hskip]
      rw [hstep]
      apply grep_fold_inv opts rx gm t acc (done ++ [f.relPath]) _ hgmt hdonet hndt
      refine ⟨fun r hr => ?_, hinv.2⟩
      rcases hinv.1 r hr with ⟨h1, h2, h3⟩
      exact ⟨h1, h2, List.mem_append.mpr (Or.inl h3)⟩
    · have hstep : grepFileStep opts rx acc f =
          (acc.1 ++ (Searcher.search_file f rx opts acc.2.1 acc.2.2).1,
           (Searcher.search_file f rx opts acc.2.1 acc.2.2).2) := by
        rw [grepFileStep, if_neg hskip]
      rw [hstep]
      apply grep_fold_inv opts rx gm t _ (done ++ [f.relPath]) _ hgmt hdonet hndt
      constructor
      · intro r hr
        rcases List.mem_append.mp hr with h1 | h1
        · rcases hinv.1 r h1 with ⟨ha, hb, hcm⟩
          exact ⟨ha, hb, List.mem_append.mpr (Or.inl hcm)⟩
        · rcases search_file_mem f rx opts acc.2.1 acc.2.2 r h1 with ⟨ha, hb⟩
          refine ⟨hb, by rw [ha]; exact hgm f (List.mem_cons_self f t), ?_⟩
          rw [ha]
          simp
      · rw [SameFileAscending, List.pairwise_append]
        refine ⟨hinv.2, ?_, ?_⟩
        · have hs := search_file_sorted f rx opts acc.2.1 acc.2.2
          rw [List.pairwise_map] at hs
          refine List.Pairwise.imp ?_ hs
          intro a b h hfile
          exact h
        · intro a ha b hb hab
          exfalso
          rcases hinv.1 a ha with ⟨_, _, hadone⟩
          rcases search_file_mem f rx opts acc.2.1 acc.2.2 b hb with ⟨hbf, _⟩
          apply hdone f (List.mem_cons_self f t)
          rw [← hbf, ← hab]
          exact hadone

/-- C4: every `grep` call returns at most `max_results` results, each
matching the compiled regex, each from a file that satisfies the glob
pattern; and within one file the line numbers appear in ascending order
(the walked tree lists each path once). -/
theorem grep_internal_spec (tree : List GFile) (rx gm : String → Bool)
    (opts : SearchOptions) (hnd : (tree.map GFile.relPath).Nodup) :
    (Searcher.grep_internal tree rx gm opts).length ≤ opts.max_results ∧
    (∀ r ∈ Searcher.grep_internal tree rx gm opts, rx r.content = true) ∧
    (∀ r ∈ Searcher.grep_internal tree rx gm opts, gm r.file = true) ∧
    SameFileAscending (Searcher.grep_internal tree rx gm opts) := by
  have hgm : ∀ f ∈ Searcher.collect_files tree gm opts.max_file_size,
      gm f.relPath = true := by
    intro f hf
    have hcond := (List.mem_filter.mp hf).2
    rcases Bool.and_eq_true_iff.mp hcond with ⟨h1, _⟩
    exact (Bool.and_eq_true_iff.mp h1).2
  have hndc : ((Searcher.collect_files tree gm opts.max_file_size).map
      GFile.relPath).Nodup :=
    List.Nodup.sublist
      (List.Sublist.map GFile.relPath (List.filter_sublist tree)) hnd
  have hinv := grep_fold_inv opts rx gm
    (Searcher.collect_files tree gm opts.max_file_size) ([], 0, false) []
    ⟨by simp, by simp [SameFileAscending]⟩ hgm (by simp) hndc
  refine ⟨List.length_take_le _ _, ?_, ?_, ?_⟩
  · intro r hr
    exact (hinv.1 r (List.mem_of_mem_take hr)).1
  · intro r hr
    exact (hinv.1 r (List.mem_of_mem_take hr)).2.1
  · exact List.Pairwise.sublist (List.take_sublist _ _) hinv.2

/-- Witness for C4: two small files, a regex matching lines containing
`x`, a glob accepting `.rs` names, and a cap of 2. -/
theorem grep_internal_spec_witness :
    (([GFile.mk "a.rs" ["x1", "y", "x2"] 10 false true,
       GFile.mk "b.txt" ["x3"] 10 false true].map GFile.relPath).Nodup) ∧
    ((Searcher.grep_internal
        [GFile.mk "a.rs" ["x1", "y", "x2"] 10 false true,
         GFile.mk "b.txt" ["x3"] 10 false true]
        (fun s => s.startsWith "x") (fun p => p.endsWith ".rs")
        (SearchOptions.mk false 2 100 0)).length ≤ 2 ∧
    (∀ r ∈ Searcher.grep_internal
        [GFile.mk "a.rs" ["x1", "y", "x2"] 10 false true,
         GFile.mk "b.txt" ["x3"] 10 false true]
        (fun s => s.startsWith "x") (fun p => p.endsWith ".rs")
        (SearchOptions.mk false 2 100 0), r.content.startsWith "x" = true) ∧
    (∀ r ∈ Searcher.grep_internal
        [GFile.mk "a.rs" ["x1", "y", "x2"] 10 false true,
         GFile.mk "b.txt" ["x3"] 10 false true]
        (fun s => s.startsWith "x") (fun p => p.endsWith ".rs")
        (SearchOptions.mk false 2 100 0), r.file.endsWith ".rs" = true) ∧
    SameFileAscending (Searcher.grep_internal
        [GFile.mk "a.rs" ["x1", "y", "x2"] 10 false true,
         GFile.mk "b.txt" ["x3"] 10 false true]
        (fun s => s.startsWith "x") (fun p => p.endsWith ".rs")
        (SearchOptions.mk false 2 100 0))) :=
  ⟨by decide,
   grep_internal_spec
     [GFile.mk "a.rs" ["x1", "y", "x2"] 10 false true,
      GFile.mk "b.txt" ["x3"] 10 false true]
     (fun s => s.startsWith "x") (fun p => p.endsWith ".rs")
     (SearchOptions.mk false 2 100 0) (by decide)⟩

/-! ## `read_lines` (src/fs/io.rs lines 210-256)

Two strategies share one observable behavior: the mmap path decodes the
whole buffer and uses `str::lines`, the buffered path loops
`BufRead::lines`.  Both cut at `'\n'` and drop one `'\r'` directly before
a cut, and neither yields a trailing empty line. -/

/-- Strip one trailing carriage return (the `\r` of a `\r\n` ending). -/
def stripCr (l : List Char) : List Char :=
  if l.getLast? = some '\r' then l.dropLast else l

/-- `str::lines` on the fully decoded buffer (the mmap strategy), written
as a left-to-right scan; `acc` holds the current segment reversed. -/
def strLinesGo (acc : List Char) : List Char → List (List Char)
  | [] => if acc.isEmpty then [] else [acc.reverse]
  | ch :: rest =>
    if ch = '\n' then stripCr acc.reverse :: strLinesGo [] rest
    else strLinesGo (ch :: acc) rest

/-- `str::lines` of the mmap strategy. -/
def strLines (s : List Char) : List (List Char) := strLinesGo [] s

/-- One `read_until('\n')` loop of `BufRead::lines` (the buffered
strategy), with fuel for structural recursion (each line consumes at
least the cut newline, so `length + 1` fuel is exact). -/
def bufReadAux : Nat → List Char → List (List Char)
  | 0, _ => []
  | fuel + 1, s =>
    if s.isEmpty then []
    else
      let chunk := s.takeWhile (fun ch => ch ≠ '\n')
      match s.dropWhile (fun ch => ch ≠ '\n') with
      | [] => [chunk]
      | _ :: rest => stripCr chunk :: bufReadAux fuel rest

/-- `BufRead::lines` of the buffered strategy. -/
def bufReadLines (s : List Char) : List (List Char) :=
  bufReadAux (s.length + 1) s

/-- The mmap strategy (io.rs lines 233-242): decode the whole map, then
`content.lines().skip(start_line).take(count)`. -/
def read_lines_mmap (content : List Char) (start_line : Nat)
    (count : Option Nat) : List (List Char) :=
  match count with
  | some n => ((strLines content).drop start_line).take n
  | none => (strLines content).drop start_line

/-- The buffered strategy (io.rs lines 244-250):
`BufReader::lines().skip(start_line).filter_map(ok).take(count)`; every
line of the char-level model decodes, so the `filter_map` keeps all. -/
def read_lines_buffered (content : List Char) (start_line : Nat)
    (count : Option Nat) : List (List Char) :=
  match count with
  | some n => ((bufReadLines content).drop start_line).take n
  | none => (bufReadLines content).drop start_line

/-- `read_lines` (io.rs lines 210-256): `PathNotFound` for a missing
file, then strategy dispatch on file size > 1 MiB (the model's byte size
is the char count). -/
def read_lines (fs : FS) (path : String) (start_line : Nat)
    (count : Option Nat) : Except GearError (List (List Char)) :=
  match fsLookup fs path with
  | none => .error (.pathNotFound path)
  | some content =>
    .ok (if 1024 * 1024 < content.length
      then read_lines_mmap content start_line count
      else read_lines_buffered content start_line count)

theorem takeWhile_append_of_all (p : Char → Bool) (a b : List Char)
    (h : ∀ x ∈ a, p x = true) : (a ++ b).takeWhile p = a ++ b.takeWhile p := by
  induction a with
  | nil => simp
  | cons x t ih =>
    have hx : p x = true := h x (List.mem_cons_self x t)
    simp only [List.cons_append, List.takeWhile_cons, hx, if_pos rfl, reduceIte]
    rw [ih (fun y hy => h y (List.mem_cons_of_mem x hy))]

theorem dropWhile_append_of_all (p : Char → Bool) (a b : List Char)
    (h : ∀ x ∈ a, p x = true) : (a ++ b).dropWhile p = b.dropWhile p := by
  induction a with
  | nil => simp
  | cons x t ih =>
    have hx : p x = true := h x (List.mem_cons_self x t)
    simp only [List.cons_append, List.dropWhile_cons, hx, if_pos rfl, reduceIte]
    exact ih (fun y hy => h y (List.mem_cons_of_mem x hy))

theorem strLinesGo_eq_bufReadAux :
    ∀ (s : List Char) (fuel : Nat) (acc : List Char),
    s.length + 1 ≤ fuel → (∀ ch ∈ acc, ch ≠ '\n') →
    strLinesGo acc s = bufReadAux fuel (acc.reverse ++ s)
  | [], fuel, acc, hf, hacc => by
    obtain ⟨f, rfl⟩ : ∃ f, fuel = f + 1 := ⟨fuel - 1, by omega⟩
    cases hacc2 : acc with
    | nil => rfl
    | cons a as =>
      rw [strLinesGo]
      have hne : ((a :: as).reverse).isEmpty = false := by
        simp
      rw [bufReadAux, List.append_nil]
      rw [hacc2] at hacc
      have hall : ∀ x ∈ (a :: as).reverse, (fun ch => decide (ch ≠ '\n')) x = true := by
        intro x hx
        simp only [decide_eq_true_eq]
        exact hacc x (List.mem_reverse.mp hx)
      rw [show ((a :: as).reverse.isEmpty) = false from hne]
      simp only [Bool.false_eq_true, if_neg, reduceIte]
      have ht : (a :: as).reverse.takeWhile (fun ch => decide (ch ≠ '\n')) =
          (a :: as).reverse := by
        have := takeWhile_append_of_all (fun ch => decide (ch ≠ '\n'))
          (a :: as).reverse [] hall
        simpa using this
      have hd : (a :: as).reverse.dropWhile (fun ch => decide (ch ≠ '\n')) = [] := by
        have := dropWhile_append_of_all (fun ch => decide (ch ≠ '\n'))
          (a :: as).reverse [] hall
        simpa using this
      rw [ht, hd]
      simp
  | c :: cs, fuel, acc, hf, hacc => by
    obtain ⟨f, rfl⟩ : ∃ f, fuel = f + 1 := ⟨fuel - 1, by omega⟩
    by_cases hc : c = '\n'
    · subst hc
      rw [strLinesGo]
      simp only [if_pos rfl, reduceIte]
      have hall : ∀ x ∈ acc.reverse, (fun ch => decide (ch ≠ '\n')) x = true := by
        intro x hx
        simp only [decide_eq_true_eq]
        exact hacc x (List.mem_reverse.mp hx)
      have hne : (acc.reverse ++ '\n' :: cs).isEmpty = false := by
        cases acc.reverse <;> rfl
      rw [bufReadAux, hne]
      simp only [Bool.false_eq_true, if_neg, reduceIte]
      rw [takeWhile_append_of_all _ _ _ hall, dropWhile_append_of_all _ _ _ hall]
      have hTnil : ('\n' :: cs).takeWhile (fun ch => decide (ch ≠ '\n')) = [] := by
        simp [List.takeWhile_cons]
      have hDall : ('\n' :: cs).dropWhile (fun ch => decide (ch ≠ '\n')) =
          '\n' :: cs := by
        simp [List.dropWhile_cons]
      rw [hTnil, hDall, List.append_nil]
      rw [strLinesGo_eq_bufReadAux cs f [] (by simp at hf; omega) (by simp)]
      rfl
    · rw [strLinesGo]
      simp only [hc, reduceIte]
      have hrw : acc.reverse ++ c :: cs = (c :: acc).reverse ++ cs := by
        simp
      rw [hrw]
      exact strLinesGo_eq_bufReadAux cs (f + 1) (c :: acc)
        (by simp at hf ⊢; omega)
        (by
          intro ch hch
          rcases List.mem_cons.mp hch with rfl | hch2
          · exact hc
          · exact hacc ch hch2)

/-- The two line-reading strategies agree on every content. -/
theorem strLines_eq_bufReadLines (s : List Char) : strLines s = bufReadLines s := by
  rw [strLines, bufReadLines]
  have := strLinesGo_eq_bufReadAux s (s.length + 1) [] (le_refl _) (by simp)
  simpa using this

theorem strLinesGo_no_newline :
    ∀ (s acc : List Char), (∀ ch ∈ acc, ch ≠ '\n') →
    ∀ l ∈ strLinesGo acc s, '\n' ∉ l
  | [], acc, hacc => by
    intro l hl
    rw [strLinesGo] at hl
    by_cases he : acc.isEmpty
    · rw [if_pos he] at hl
      simp at hl
    · rw [if_neg he] at hl
      rcases List.mem_singleton.mp hl with rfl
      intro hmem
      exact hacc '\n' (List.mem_reverse.mp hmem) rfl
  | ch :: rest, acc, hacc => by
    intro l hl
    rw [strLinesGo] at hl
    by_cases hc : ch = '\n'
    · rw [if_pos hc] at hl
      rcases List.mem_cons.mp hl with rfl | htail
      · intro hmem
        have hmem2 : '\n' ∈ acc.reverse := by
          rw [stripCr] at hmem
          by_cases hlast : acc.reverse.getLast? = some '\r'
          · rw [if_pos hlast] at hmem
            exact (List.dropLast_sublist acc.reverse).subset hmem
          · rw [if_neg hlast] at hmem
            exact hmem
        exact hacc '\n' (List.mem_reverse.mp hmem2) rfl
      · exact strLinesGo_no_newline rest [] (by simp) l htail
    · rw [if_neg hc] at hl
      refine strLinesGo_no_newline rest (ch :: acc) ?_ l hl
      intro x hx
      rcases List.mem_cons.mp hx with rfl | hx2
      · exact hc
      · exact hacc x hx2

/-- C7: `read_lines(path, start, count)` returns the file's lines with
the first `start` skipped and at most `count` taken, each without its
line terminator; and the mmap strategy (chosen when the file exceeds
1 MiB) agrees with the buffered strategy on the same content. -/
theorem read_lines_spec (fs : FS) (path : String) (content : List Char)
    (start_line : Nat) (count : Option Nat)
    (hread : fsLookup fs path = some content) :
    read_lines_mmap content start_line count =
      read_lines_buffered content start_line count ∧
    read_lines fs path start_line count =
      .ok (read_lines_mmap content start_line count) ∧
    (∀ L, read_lines fs path start_line count = .ok L → ∀ l ∈ L, '\n' ∉ l) := by
  have hequiv : read_lines_mmap content start_line count =
      read_lines_buffered content start_line count := by
    cases count with
    | none =>
      simp only [read_lines_mmap, read_lines_buffered, strLines_eq_bufReadLines]
    | some n =>
      simp only [read_lines_mmap, read_lines_buffered, strLines_eq_bufReadLines]
  have hrl : read_lines fs path start_line count =
      .ok (read_lines_mmap content start_line count) := by
    rw [read_lines, hread]
    show Except.ok (if 1024 * 1024 < content.length
        then read_lines_mmap content start_line count
        else read_lines_buffered content start_line count) =
      Except.ok (read_lines_mmap content start_line count)
    by_cases hsz : 1024 * 1024 < content.length
    · rw [if_pos hsz]
    · rw [if_neg hsz, ← hequiv]
  refine ⟨hequiv, hrl, ?_⟩
  intro L hL l hl
  rw [hrl] at hL
  have hLv : L = read_lines_mmap content start_line count := by
    injection hL with h
    exact h.symm
  rw [hLv] at hl
  have hmem : l ∈ strLines content := by
    cases count with
    | none =>
      simp only [read_lines_mmap] at hl
      exact List.mem_of_mem_drop hl
    | some n =>
      simp only [read_lines_mmap] at hl
      exact List.mem_of_mem_drop (List.mem_of_mem_take hl)
  exact strLinesGo_no_newline content [] (by simp) l hmem

/-- Witness for C7 on a concrete two-line file with a CRLF ending. -/
theorem read_lines_spec_witness :
    fsLookup [("l.txt", ['a', '\r', '\n', 'b', '\n', 'c'])] "l.txt" =
      some ['a', '\r', '\n', 'b', '\n', 'c'] ∧
    (read_lines_mmap ['a', '\r', '\n', 'b', '\n', 'c'] 1 (some 1) =
      read_lines_buffered ['a', '\r', '\n', 'b', '\n', 'c'] 1 (some 1) ∧
    read_lines [("l.txt", ['a', '\r', '\n', 'b', '\n', 'c'])] "l.txt" 1 (some 1) =
      .ok (read_lines_mmap ['a', '\r', '\n', 'b', '\n', 'c'] 1 (some 1)) ∧
    (∀ L, read_lines [("l.txt", ['a', '\r', '\n', 'b', '\n', 'c'])] "l.txt" 1
        (some 1) = .ok L → ∀ l ∈ L, '\n' ∉ l)) :=
  ⟨by decide,
   read_lines_spec [("l.txt", ['a', '\r', '\n', 'b', '\n', 'c'])] "l.txt"
     ['a', '\r', '\n', 'b', '\n', 'c'] 1 (some 1) (by decide)⟩

end AgentGear
